import Mathlib

/-!
The program rst-extract: file ordering and marker detection.

A shallow embedding of `parser.go` (package `main` of `joeshaw/rst-extract`).

Conventions of the embedding.

* A Go `string` is a `Str`, the list of its Unicode code points: the strings of the program
  (package names, file paths, comment texts out of `go/parser`) are taken to be valid UTF-8,
  and a list of code points stands for exactly one valid UTF-8 byte sequence (`bytes`).
  Where Go looks at bytes that are not ASCII (the comparison `ni < nj`), the embedding looks
  at the UTF-8 bytes of the string.
* A Go run-time panic (index out of range) is the result `none`; a function that can panic
  returns an `Option`.
* A `map` is the list of its entries in the order in which one `range` loop enumerates them.
* Standard-library functions (`strings.SplitN`, `strings.TrimSpace`, `strings.Index`,
  `path.Base`, `path.Join`, `sort.Sort`, and `(*ast.CommentGroup).Text` of `go/ast`) are
  embedded from their Go implementation, restricted where said to the arguments `parser.go`
  calls them with.
* The files of the directory `test`, which the tests of the repository parse, are not part of
  the sources at hand; they are taken from the specification.
-/

namespace RstExtract

/-! ## Strings -/

/-- A Go string, as the list of its code points. -/
abbrev Str := List Char

/-- The UTF-8 encoding of one code point, as a list of byte values. -/
def utf8 (c : Char) : List Nat :=
  let n := c.toNat
  if n < 0x80 then [n]
  else if n < 0x800 then [0xC0 + n / 64, 0x80 + n % 64]
  else if n < 0x10000 then [0xE0 + n / 4096, 0x80 + n / 64 % 64, 0x80 + n % 64]
  else [0xF0 + n / 262144, 0x80 + n / 4096 % 64, 0x80 + n / 64 % 64, 0x80 + n % 64]

/-- The bytes of a Go string. -/
def bytes : Str → List Nat
  | [] => []
  | c :: cs => utf8 c ++ bytes cs

/-- Go's comparison `<` of two byte sequences: the first differing byte decides, and a
proper prefix is smaller. -/
def bytesLess : List Nat → List Nat → Bool
  | _, [] => false
  | [], _ :: _ => true
  | a :: as, b :: bs => if a < b then true else if b < a then false else bytesLess as bs

/-- Go's `a < b` on strings: byte-wise lexicographic comparison. -/
def strLess (a b : Str) : Bool := bytesLess (bytes a) (bytes b)

/-- The marker token `"+rst"`. -/
def marker : Str := ['+', 'r', 's', 't']

/-- The separator `"\n"`. -/
def newline : Str := ['\n']

/-- The literal `"doc"`. -/
def doc : Str := ['d', 'o', 'c']

/-! ## Standard library: `unicode`, `strings` -/

/-- Go's `unicode.IsSpace`: the Latin-1 cases `'\t'`, `'\n'`, `'\v'`, `'\f'`, `'\r'`, `' '`,
U+0085, U+00A0, and beyond Latin-1 the table `White_Space`. -/
def IsSpace (r : Char) : Bool :=
  let n := r.toNat
  if n ≤ 0xFF then
    n = 0x09 || n = 0x0A || n = 0x0B || n = 0x0C || n = 0x0D || n = 0x20 || n = 0x85 || n = 0xA0
  else
    n = 0x1680 || (0x2000 ≤ n && n ≤ 0x200A) || n = 0x2028 || n = 0x2029 || n = 0x202F
      || n = 0x205F || n = 0x3000

/-- Go's `strings.TrimLeftFunc(s, unicode.IsSpace)`. -/
def TrimLeftSpace : Str → Str
  | [] => []
  | c :: cs => if IsSpace c then TrimLeftSpace cs else c :: cs

/-- Go's `strings.TrimRightFunc(s, unicode.IsSpace)`. -/
def TrimRightSpace (s : Str) : Str := (TrimLeftSpace s.reverse).reverse

/-- Go's `strings.TrimSpace`: all leading and trailing white space, as defined by Unicode,
removed. -/
def TrimSpace (s : Str) : Str := TrimRightSpace (TrimLeftSpace s)

/-- Go's `strings.HasPrefix(s, sep)`. -/
def HasPrefix : Str → Str → Bool
  | _, [] => true
  | [], _ :: _ => false
  | c :: cs, d :: ds => c == d && HasPrefix cs ds

/-- Go's `strings.Index(s, sep)` counted from position `i`: the position of the first
occurrence of `sep`, `none` for Go's `-1`. -/
def IndexFrom (sep : Str) : Str → Nat → Option Nat
  | [], i => if sep = [] then some i else none
  | c :: cs, i => if HasPrefix (c :: cs) sep then some i else IndexFrom sep cs (i + 1)

/-- Go's `strings.Index(s, sep)`. -/
def Index (s sep : Str) : Option Nat := IndexFrom sep s 0

/-- The loop of Go's `strings.genSplit` (with `sepSave = 0`), `k` being the number of cuts
still allowed (`n - 1 - i` in the Go code): cut at the first separator while cuts are left
and a separator is found, then the rest of the string is the last piece. -/
def genSplitLoop (sep : Str) : Nat → Str → List Str
  | 0, s => [s]
  | k + 1, s =>
    match Index s sep with
    | none => [s]
    | some m => s.take m :: genSplitLoop sep k (s.drop (m + sep.length))

/-- Go's `strings.SplitN(s, sep, n)` for a non-empty separator and `n ≥ 0`: no piece when
`n = 0`, otherwise at most `n` pieces, the last one being the unsplit remainder. -/
def SplitN (s sep : Str) (n : Nat) : List Str :=
  match n with
  | 0 => []
  | k + 1 => genSplitLoop sep k s

/-! ## Data model: `go/ast` -/

/-- An `ast.CommentGroup`, represented by the string its method `Text()` returns (comment
markers removed, lines joined with newlines). -/
structure CommentGroup where
  /-- The result of `cgrp.Text()`. -/
  Text : Str
deriving DecidableEq, Repr

/-- An `ast.File`: of its fields only `Comments`, in source order, is read. -/
structure File where
  /-- The comment groups of the file, in source order. -/
  Comments : List CommentGroup
deriving DecidableEq, Repr

/-- An `ast.Package`: its name and the map `Files` from file path to file, as the list of the
map's entries in the order of enumeration. -/
structure Package where
  /-- The package name. -/
  Name : Str
  /-- The entries of the map `Files`. -/
  Files : List (Str × File)
deriving DecidableEq, Repr

/-! ## `parser.go`: marker detection -/

/-- The function `rstComment`: split the text of the comment group at the first newline; when
the first piece, trimmed, is the marker, return the second piece and `true`, otherwise `""`
and `false`.  The expressions `parts[0]` and `parts[1]` panic when the index is not below
`len(parts)`. -/
def rstComment (cgrp : CommentGroup) : Option (Str × Bool) :=
  let s := cgrp.Text
  let parts := SplitN s newline 2
  match parts[0]? with
  | none => none
  | some p0 =>
    if TrimSpace p0 = marker then
      match parts[1]? with
      | none => none
      | some p1 => some (p1, true)
    else
      some ([], false)

/-! ## Standard library: `path` -/

/-- The loop of Go's `lastSlash`: the greatest position below `i` that holds a `'/'`, `none`
for Go's `-1`. -/
def lastSlashLoop (s : Str) : Nat → Option Nat
  | 0 => none
  | i + 1 => if s[i]? = some '/' then some i else lastSlashLoop s i

/-- Go's `lastSlash(s)`, the index of the last slash of `s`. -/
def lastSlash (s : Str) : Option Nat := lastSlashLoop s s.length

/-- The loop `for len(path) > 0 && path[len(path)-1] == '/'` of `path.Base`, on the reversed
path: trailing slashes are removed. -/
def dropSlashes : Str → Str
  | [] => []
  | c :: cs => if c = '/' then dropSlashes cs else c :: cs

/-- Go's `path.Base`: the last element of the path; `"."` for the empty path and `"/"` for a
path of slashes only. -/
def Base (path : Str) : Str :=
  if path = [] then ['.']
  else
    let path := (dropSlashes path.reverse).reverse
    let path := match lastSlash path with
      | some i => path.drop (i + 1)
      | none => path
    if path = [] then ['/'] else path

/-! ## `parser.go`: file ordering -/

/-- The loop of `stripExt`, `i + 1` being the number of positions still to visit: the
positions are visited from the last one down, and the first `'.'` met cuts the name. -/
def stripExtLoop (filename : Str) : Nat → Str
  | 0 => filename
  | i + 1 => if filename[i]? = some '.' then filename.take i else stripExtLoop filename i

/-- The function `stripExt`. -/
def stripExt (filename : Str) : Str := stripExtLoop filename filename.length

/-- The type `fileSorter`: the package, its files and, at the same positions, their base
names. -/
structure fileSorter where
  /-- The package whose files are sorted. -/
  pkg : Package
  /-- The files. -/
  files : List File
  /-- The base names of the files. -/
  names : List Str
deriving DecidableEq, Repr

/-- The method `Len`. -/
def fileSorter.Len (fs : fileSorter) : Nat := fs.files.length

/-- The Go statement `l[i], l[j] = l[j], l[i]` on a slice: both elements are read (a panic
when an index is out of range), then `l[i]` and `l[j]` are written in this order. -/
def swapAt {α : Type} (l : List α) (i j : Nat) : Option (List α) :=
  match l[i]?, l[j]? with
  | some a, some b => some ((l.set i b).set j a)
  | _, _ => none

/-- The method `Swap`: the two files are exchanged, then the two names. -/
def fileSorter.Swap (fs : fileSorter) (i j : Nat) : Option fileSorter :=
  match swapAt fs.files i j with
  | none => none
  | some files =>
    match swapAt fs.names i j with
    | none => none
    | some names => some { fs with files := files, names := names }

/-- The body of the method `Less` once `ni` and `nj` are read: the nested `switch`
statements, `pkgName` being `fs.pkg.Name`.  A `switch` takes the first case that is equal
to its tag. -/
def LessNames (pkgName ni nj : Str) : Bool :=
  if ni = pkgName then
    if nj = pkgName then false
    else true
  else if ni = doc then
    if nj = pkgName ∨ nj = doc then false
    else true
  else
    if nj = pkgName ∨ nj = doc then false
    else strLess ni nj

/-- The method `Less`: `fs.names[i]` and `fs.names[j]` are read (a panic when an index is
out of range) and compared. -/
def fileSorter.Less (fs : fileSorter) (i j : Nat) : Option Bool :=
  match fs.names[i]?, fs.names[j]? with
  | some ni, some nj => some (LessNames fs.pkg.Name ni nj)
  | _, _ => none

/-! ## Standard library: `sort` -/

/-- The inner loop of Go's `insertionSort(data, 0, b)`,
`for j := i; j > 0 && data.Less(j, j-1); j-- { data.Swap(j, j-1) }`, started at `j`. -/
def insertionSortInner : Nat → fileSorter → Option fileSorter
  | 0, fs => some fs
  | j + 1, fs =>
    match fs.Less (j + 1) j with
    | none => none
    | some false => some fs
    | some true =>
      match fs.Swap (j + 1) j with
      | none => none
      | some fs1 => insertionSortInner j fs1

/-- The outer loop of Go's `insertionSort(data, 0, b)`, `for i := 1; i < b; i++`, started at
`i` with `k = b - i` rounds to go. -/
def insertionSortOuter : Nat → Nat → fileSorter → Option fileSorter
  | 0, _, fs => some fs
  | k + 1, i, fs =>
    match insertionSortInner i fs with
    | none => none
    | some fs1 => insertionSortOuter k (i + 1) fs1

/-- Go's `sort.Sort(data)` on a `fileSorter`, which it reaches through the methods `Len`,
`Less` and `Swap` only: `insertionSort(data, 0, data.Len())`.  This is what `sort.Sort` runs
up to twelve elements; on longer inputs Go partitions before it sorts by insertion, and the
embedding sorts by insertion at every length.  The comparison being a strict total order on
names, the order of the names in the result does not depend on the algorithm. -/
def sortSort (fs : fileSorter) : Option fileSorter :=
  insertionSortOuter (fs.Len - 1) 1 fs

/-! ## `parser.go`: extraction -/

/-- The base name `path.Base(stripExt(name))` that `newFileSorter` computes for the key
`name` of the map `pkg.Files`. -/
def baseName (name : Str) : Str := Base (stripExt name)

/-- The body of the loop `for name, f := range pkg.Files` of `newFileSorter`. -/
def appendEntry (fs : fileSorter) (e : Str × File) : fileSorter :=
  { fs with files := fs.files ++ [e.2], names := fs.names ++ [baseName e.1] }

/-- The function `newFileSorter`: files and base names are collected in the order of
enumeration of the map, then sorted. -/
def newFileSorter (pkg : Package) : Option fileSorter :=
  sortSort (pkg.Files.foldl appendEntry { pkg := pkg, files := [], names := [] })

/-- The loop `for _, c := range f.Comments` of `parsePackage`, `comments` being the slice
built so far. -/
def commentsLoop : List CommentGroup → List Str → Option (List Str)
  | [], comments => some comments
  | c :: cs, comments =>
    match rstComment c with
    | none => none
    | some (s, ok) => if ok then commentsLoop cs (comments ++ [s]) else commentsLoop cs comments

/-- The loop `for _, f := range sorted.files` of `parsePackage`. -/
def filesLoop : List File → List Str → Option (List Str)
  | [], comments => some comments
  | f :: fs, comments =>
    match commentsLoop f.Comments comments with
    | none => none
    | some comments1 => filesLoop fs comments1

/-- The function `parsePackage`. -/
def parsePackage (pkg : Package) : Option (List Str) :=
  match newFileSorter pkg with
  | none => none
  | some sorted => filesLoop sorted.files []

/-! ## Specification vocabulary: texts -/

/-- The shape of every text the comment normalizer `Text()` returns: empty, or ended by a
newline. -/
def Normalized (s : Str) : Prop := s = [] ∨ s.getLast? = some '\n'

instance (s : Str) : Decidable (Normalized s) := by
  unfold Normalized; infer_instance

/-- The first line of a text: the text up to its first newline, or the whole text when it
has none. -/
def firstLine (s : Str) : Str := s.takeWhile (fun c => c != '\n')

/-! ## Proof vocabulary: the sort as a function on (name, file) pairs -/

/-- The `fileSorter` of a package whose names and files are the two components of a list of
pairs. -/
def fileSorter.ofPairs (pkg : Package) (ps : List (Str × File)) : fileSorter :=
  { pkg := pkg, files := ps.map Prod.snd, names := ps.map Prod.fst }

/-- The member files of a package with their base names, in the order of enumeration. -/
def entries (pkg : Package) : List (Str × File) :=
  pkg.Files.map (fun e => (baseName e.1, e.2))

/-- One round of insertion: `x` moves down past the elements of the prefix, given last
element first, as long as it is before them. -/
def insertRev (P : Str) (x : Str × File) : List (Str × File) → List (Str × File)
  | [] => [x]
  | y :: rp =>
    if LessNames P x.1 y.1 then insertRev P x rp ++ [y] else (y :: rp).reverse ++ [x]

/-- Insertion sort of `rest` into the sorted list `done`. -/
def sortFrom (P : Str) : List (Str × File) → List (Str × File) → List (Str × File)
  | done, [] => done
  | done, x :: rest => sortFrom P (insertRev P x done.reverse) rest

/-- A list of names is in order when no name is before an earlier one. -/
def Ordered (P : Str) (names : List Str) : Prop :=
  names.Pairwise (fun a b => LessNames P b a = false)

/-- The member files of a package with their base names, sorted by insertion. -/
def sortedEntries (pkg : Package) : List (Str × File) :=
  sortFrom pkg.Name [] (entries pkg)

/-! ## Specification vocabulary: the extracted sequence -/

/-- The payload of a comment block that `rstComment` matches. -/
def payloadOf (c : CommentGroup) : Option Str :=
  match rstComment c with
  | some (s, true) => some s
  | _ => none

/-- The sequence of the specification: for each file in the given order, for each comment
block of the file in source order, the payload of the block when it matches. -/
def extractSpec (files : List File) : List Str :=
  files.flatMap (fun f => f.Comments.filterMap payloadOf)

/-! ## Sample packages -/

/-- Modelled from the spec: the file `test/z.go` of the directory `test`, which is missing
from the sources, as one comment group whose text is the marker line followed by the payload
that the specification gives. -/
def zEntry : Str × File :=
  ("test/z.go".toList, ⟨[⟨"+rst\nAn interesting\nmulti-line\ncomment inside\nz.go\n".toList⟩]⟩)

/-- A sample file `test/a.go` with two comment blocks, the first one not marked. -/
def aEntry : Str × File :=
  ("test/a.go".toList,
    ⟨[⟨"Package test is a sample.\n".toList⟩, ⟨"+rst\nA comment in a.go\n".toList⟩]⟩)

/-- Modelled from the spec: the file `test/doc.go` of the directory `test`, which is missing
from the sources, as one comment group whose text is the marker line followed by the payload
that the specification gives. -/
def docEntry : Str × File :=
  ("test/doc.go".toList, ⟨[⟨"+rst\nMore restructured text, in doc.go\n".toList⟩]⟩)

/-- Modelled from the spec: the file `test/test.go` of the directory `test`, which is missing
from the sources, as one comment group whose text is the marker line followed by the payload
that the specification gives. -/
def testEntry : Str × File :=
  ("test/test.go".toList, ⟨[⟨"+rst\nA comment inside test.go\n".toList⟩]⟩)

/-- A sample package, after the directory `test` of the repository: the package `test` with
the files `z.go`, `a.go`, `doc.go` and `test.go`, enumerated in this order. -/
def testPackage : Package :=
  { Name := "test".toList, Files := [zEntry, aEntry, docEntry, testEntry] }

/-- A sample package named `doc`, with the files `b.go`, `doc.go` and `a.go`. -/
def docPackage : Package :=
  { Name := "doc".toList
    Files :=
      [ ("b.go".toList, ⟨[⟨"+rst\nb\n".toList⟩]⟩),
        ("doc.go".toList, ⟨[⟨"+rst\nheader\n".toList⟩]⟩),
        ("a.go".toList, ⟨[]⟩) ] }

/-- A sample package `main` without a file `main.go`: the files `util.go` and `test/doc.go`. -/
def mainPackage : Package :=
  { Name := "main".toList
    Files := [("util.go".toList, ⟨[⟨"+rst\nutil\n".toList⟩]⟩), docEntry] }

/-! ## Specification vocabulary: the composite key -/

/-- The tier of a base name: 1 for the package name, 2 for `"doc"` when it is not the package
name, 3 otherwise. -/
def tier (pkgName a : Str) : Nat :=
  if a = pkgName then 1 else if a = doc then 2 else 3

/-- The order of the composite keys: the tier decides; two names of tier 1 or of tier 2 are
never smaller than each other; two names of tier 3 are compared as strings, byte-wise. -/
def keyLess (pkgName a b : Str) : Bool :=
  decide (tier pkgName a < tier pkgName b) ||
    (tier pkgName a == 3 && tier pkgName b == 3 && strLess a b)

/-- Modelled from the spec: the file `test/a.go` of the directory `test`, which is missing
from the sources, as one comment group whose text is the marker line followed by the payload
that the specification gives. -/
def aGoEntry : Str × File :=
  ("test/a.go".toList, ⟨[⟨"+rst\nHere's a comment in a.go\n".toList⟩]⟩)

/-- Modelled from the spec: the member files of the package `test` that the tests of the
repository parse, each with one marked comment block; the directory is missing from the
sources. -/
def testDirFiles : List (Str × File) := [testEntry, docEntry, aGoEntry, zEntry]

/-- The payloads that `TestParsePackage` expects. -/
def testDirExpected : List Str :=
  [ "A comment inside test.go\n".toList,
    "More restructured text, in doc.go\n".toList,
    "Here's a comment in a.go\n".toList,
    "An interesting\nmulti-line\ncomment inside\nz.go\n".toList ]

/-! ## Specification vocabulary: the pairing of names and files -/

/-- The name `n` is the base name of the member file `f` of the package: `f` is in the map
`pkg.Files` under a path of base name `n`. -/
def IsBaseNameOf (pkg : Package) (n : Str) (f : File) : Prop :=
  ∃ path, (path, f) ∈ pkg.Files ∧ baseName path = n

/-- The two lists of a `fileSorter` are paired by `R`: they have the same length and at
every position `i` the name `names[i]` and the file `files[i]` are related by `R`. -/
def PairedBy (R : Str → File → Prop) (fs : fileSorter) : Prop :=
  fs.names.length = fs.files.length ∧
    ∀ (i : Nat) (n : Str) (f : File), fs.names[i]? = some n → fs.files[i]? = some f → R n f

/-! ## Standard library: `path.Clean`, `path.Join` -/

/-- The loop `for out.w > dotdot && out.index(out.w) != '/' { out.w-- }` of Go's `path.Clean`,
on the write position `w`. -/
def backtrackLoop (out : Str) (dotdot : Nat) : Nat → Nat
  | 0 => 0
  | w + 1 => if dotdot < w + 1 ∧ out[w + 1]? ≠ some '/' then backtrackLoop out dotdot w else w + 1

/-- The main loop of Go's `path.Clean`: `p` is the part of the path still to read, `out` the
buffer written so far, `dotdot` the position in the buffer where `..` must stop.  The first
argument bounds the number of rounds; each round reads at least one character. -/
def cleanLoop (rooted : Bool) : Nat → Str → Str → Nat → Str
  | 0, _, out, _ => out
  | fuel + 1, p, out, dotdot =>
    match p with
    | [] => out
    | c :: t =>
      if c = '/' then
        cleanLoop rooted fuel t out dotdot
      else if c = '.' ∧ (t = [] ∨ t.head? = some '/') then
        cleanLoop rooted fuel t out dotdot
      else if c = '.' ∧ t.head? = some '.' ∧ (t.tail = [] ∨ t.tail.head? = some '/') then
        if dotdot < out.length then
          cleanLoop rooted fuel t.tail (out.take (backtrackLoop out dotdot (out.length - 1)))
            dotdot
        else if !rooted then
          let out1 := (if 0 < out.length then out ++ ['/'] else out) ++ ['.', '.']
          cleanLoop rooted fuel t.tail out1 out1.length
        else
          cleanLoop rooted fuel t.tail out dotdot
      else
        let out1 :=
          if (rooted ∧ out.length ≠ 1) ∨ (¬ rooted ∧ out.length ≠ 0) then out ++ ['/'] else out
        cleanLoop rooted fuel ((c :: t).dropWhile (fun d => d != '/'))
          (out1 ++ (c :: t).takeWhile (fun d => d != '/')) dotdot

/-- Go's `path.Clean`: the shortest path name equivalent to `path` by purely lexical
processing. -/
def Clean (path : Str) : Str :=
  match path with
  | [] => ['.']
  | c :: t =>
    let out :=
      if c = '/' then cleanLoop true (c :: t).length t ['/'] 1
      else cleanLoop false (c :: t).length (c :: t) [] 0
    if out = [] then ['.'] else out

/-- The loop of Go's `path.Join` that builds the buffer: the non-empty elements, separated by
slashes. -/
def joinLoop : List Str → Str → Str
  | [], buf => buf
  | e :: es, buf =>
    if 0 < buf.length ∨ e ≠ [] then
      joinLoop es ((if 0 < buf.length then buf ++ ['/'] else buf) ++ e)
    else joinLoop es buf

/-- Go's `path.Join`: the elements joined with slashes, empty elements ignored, and the
result cleaned; the empty string when every element is empty. -/
def Join (elem : List Str) : Str :=
  if elem.all (fun e => e.isEmpty) then [] else Clean (joinLoop elem [])

/-! ## `parser.go`: the driver -/

/-- The calls that the loop of `main` makes on the package `os` and on the file `outf`; the
messages printed on the standard output are left out. -/
inductive OsCall where
  /-- The call `os.Create(filename)`. -/
  | Create (filename : Str)
  /-- The call `outf.WriteString(s)`. -/
  | WriteString (s : Str)
  /-- The call `outf.Close()`. -/
  | Close
  /-- The call `os.Exit(code)`. -/
  | Exit (code : Nat)
deriving DecidableEq, Repr

/-- The loop `for _, c := range comments` of `main`: each comment is written, then a
newline. -/
def writeLoop : List Str → List OsCall
  | [] => []
  | c :: cs => OsCall.WriteString c :: OsCall.WriteString newline :: writeLoop cs

/-- The body of the loop `for _, pkg := range pkgs` of `main`, as the list of the calls it
makes; `createOk filename` tells whether `os.Create(filename)` returns without error. -/
def mainBody (createOk : Str → Bool) (outDir : Str) (pkg : Package) : Option (List OsCall) :=
  let filename := Join [outDir, pkg.Name ++ ['.', 'r', 's', 't']]
  match parsePackage pkg with
  | none => none
  | some comments =>
    if 0 < comments.length then
      if createOk filename then
        some (OsCall.Create filename :: (writeLoop comments ++ [OsCall.Close]))
      else
        some [OsCall.Create filename, OsCall.Exit 1]
    else
      some []

/-- The loop `for _, pkg := range pkgs` of `main`, over the packages in the order of
enumeration: it ends at the first call of `os.Exit`. -/
def mainLoop (createOk : Str → Bool) (outDir : Str) : List Package → Option (List OsCall)
  | [] => some []
  | pkg :: pkgs =>
    match mainBody createOk outDir pkg with
    | none => none
    | some calls =>
      if OsCall.Exit 1 ∈ calls then some calls
      else
        match mainLoop createOk outDir pkgs with
        | none => none
        | some calls1 => some (calls ++ calls1)

/-! ## Specification vocabulary: the files written -/

/-- The state of the output files: the content of each file that exists, and the name of
the file that `outf` designates. -/
structure Disk where
  /-- The content of the file of a given name, `none` when there is no such file. -/
  content : Str → Option Str
  /-- The name of the file `outf`, `none` when it is closed. -/
  outf : Option Str

/-- The effect of one call: `os.Create` makes the file empty and opens it, `WriteString`
appends to the open file, `Close` closes it. -/
def Disk.step (d : Disk) : OsCall → Disk
  | OsCall.Create filename =>
    { content := fun n => if n = filename then some [] else d.content n, outf := some filename }
  | OsCall.WriteString s =>
    match d.outf with
    | none => d
    | some f =>
      { d with content := fun n => if n = f then (d.content n).map (fun t => t ++ s)
                                    else d.content n }
  | OsCall.Close => { d with outf := none }
  | OsCall.Exit _ => d

/-- The effect of a list of calls. -/
def Disk.run (d : Disk) (calls : List OsCall) : Disk := calls.foldl Disk.step d

/-- The state without any file. -/
def Disk.empty : Disk := { content := fun _ => none, outf := none }

/-- The content of the specification: each payload followed by one newline, in order. -/
def rstContent (comments : List Str) : Str := comments.flatMap (fun c => c ++ newline)

/-! ## Specification vocabulary: the name of a file -/

/-- The last component of a path: what follows its last slash, the whole path when it has no
slash. -/
def lastComponent (path : Str) : Str :=
  match lastSlash path with
  | some i => path.drop (i + 1)
  | none => path

/-- The base name of the specification: the name of the file, that is the last component of
the path, without its trailing extension. -/
def fileBaseName (path : Str) : Str := stripExt (lastComponent path)

/-! ## Standard library: `go/ast`, the text of a comment group -/

/-- Go's `strings.Split(s, sep)` for a non-empty separator: the loop of `genSplit` cuts at
every separator; their number, `strings.Count(s, sep)`, is at most `len(s)`, and the loop
stops by itself when no separator is left. -/
def Split (s sep : Str) : List Str := genSplitLoop sep s.length s

/-- Go's `strings.Join(elems, "\n")`. -/
def joinLines : List Str → Str
  | [] => []
  | [l] => l
  | l :: ls => l ++ '\n' :: joinLines ls

/-- The function `isWhitespace` of `go/ast`. -/
def isWhitespace (ch : Char) : Bool := ch = ' ' || ch = '\t' || ch = '\n' || ch = '\r'

/-- The loop of `stripTrailingWhitespace`, on the reversed string. -/
def dropWhitespace : Str → Str
  | [] => []
  | c :: cs => if isWhitespace c then dropWhitespace cs else c :: cs

/-- The function `stripTrailingWhitespace` of `go/ast`. -/
def stripTrailingWhitespace (s : Str) : Str := (dropWhitespace s.reverse).reverse

/-- The test `'a' <= b && b <= 'z' || '0' <= b && b <= '9'` of `isDirective`. -/
def isLowerAlnum (b : Char) : Bool :=
  (97 ≤ b.toNat && b.toNat ≤ 122) || (48 ≤ b.toNat && b.toNat ≤ 57)

/-- The loop `for i := 0; i <= colon+1; i++` of `isDirective`, `k` positions from `i` on:
every character but the colon is a lower-case letter or a digit. -/
def directiveLoop (s : Str) (colon : Nat) : Nat → Nat → Bool
  | 0, _ => true
  | k + 1, i =>
    if i = colon then directiveLoop s colon k (i + 1)
    else
      match s[i]? with
      | none => false
      | some b => if isLowerAlnum b then directiveLoop s colon k (i + 1) else false

/-- The function `isDirective` of `go/ast`, on the comment without its `//`: a line, extern
or export directive, or a text that starts like `[a-z0-9]+:[a-z0-9]`. -/
def isDirective (c : Str) : Bool :=
  if HasPrefix c "line ".toList || HasPrefix c "extern ".toList
      || HasPrefix c "export ".toList then true
  else
    match Index c [':'] with
    | none => false
    | some colon =>
      if colon = 0 ∨ c.length ≤ colon + 1 then false
      else directiveLoop c colon (colon + 2) 0

/-- The lines of a text, each without its trailing white space: `strings.Split(c, "\n")`
followed by the loop over `cl` of `Text`. -/
def strippedLines (c : Str) : List Str := (Split c newline).map stripTrailingWhitespace

/-- The body of the loop `for _, c := range comments` of `Text`: the lines that the comment
`c`, of text `text`, adds.  The expressions `c[1]` and `c[2 : len(c)-2]` panic on a text too
short. -/
def commentLines (text : Str) : Option (List Str) :=
  match text[1]? with
  | none => none
  | some c1 =>
    if c1 = '/' then
      match text.drop 2 with
      | [] => some (strippedLines [])
      | d :: t =>
        if d = ' ' then some (strippedLines t)
        else if isDirective (d :: t) then some []
        else some (strippedLines (d :: t))
    else if c1 = '*' then
      if text.length < 4 then none
      else some (strippedLines ((text.drop 2).take (text.length - 4)))
    else
      some (strippedLines text)

/-- The loop `for _, c := range comments` of `Text`. -/
def groupLines : List Str → Option (List Str)
  | [] => some []
  | c :: cs =>
    match commentLines c with
    | none => none
    | some ls =>
      match groupLines cs with
      | none => none
      | some ls1 => some (ls ++ ls1)

/-- The loop of `Text` that removes the leading blank lines and turns each run of interior
blank lines into one: `kept` is `lines[0:n]`. -/
def compactLines : List Str → List Str → List Str
  | [], kept => kept
  | line :: ls, kept =>
    if line ≠ [] ∨ (kept ≠ [] ∧ kept.getLast? ≠ some []) then compactLines ls (kept ++ [line])
    else compactLines ls kept

/-- The end of `Text`: a last empty line is added when the last line is not empty, and the
lines are joined with newlines. -/
def finishLines (kept : List Str) : Str :=
  if kept ≠ [] ∧ kept.getLast? ≠ some [] then joinLines (kept ++ [[]]) else joinLines kept

/-- Go's `(*ast.CommentGroup).Text`, on the texts of the comments of the group, with their
comment markers: the text of the comments, markers removed, trailing white space and leading
blank lines removed, ended by a newline. -/
def groupText (list : List Str) : Option Str :=
  match groupLines list with
  | none => none
  | some lines => some (finishLines (compactLines lines []))

/-- The function `rstComment` on a comment group given by the texts of its comments: the
group goes through `Text`. -/
def rstCommentOf (list : List Str) : Option (Str × Bool) :=
  match groupText list with
  | none => none
  | some s => rstComment ⟨s⟩

/-! ## Specification vocabulary: the content of a comment -/

/-- The lines of a text: the pieces between its newlines. -/
def linesOf : Str → List Str
  | [] => [[]]
  | c :: cs =>
    if c = '\n' then [] :: linesOf cs
    else
      match linesOf cs with
      | [] => [[c]]
      | l :: ls => (c :: l) :: ls

/-- A line that `Text` takes for blank: it holds spaces, tabs and carriage returns only, the
white space of `isWhitespace`.  This is narrower than the white space that `TrimSpace`
removes. -/
def isBlankLine (l : Str) : Bool := l.all isWhitespace

/-- The first line of a content that `Text` does not take for blank. -/
def firstNonBlankLine (content : Str) : Option Str :=
  (linesOf content).find? (fun l => !isBlankLine l)

/-- The first line of the content that holds something else than spaces, tabs and carriage
returns is, trimmed, the marker. -/
def MarkerFirst (content : Str) : Prop :=
  ∃ l, firstNonBlankLine content = some l ∧ TrimSpace l = marker

/-- A line of white space only, in the sense of the trim: nothing is left of it once it is
trimmed by `TrimSpace`. -/
def isWhiteLine (l : Str) : Bool := decide (TrimSpace l = [])

/-- The first line of a content that is not of white space only. -/
def firstNonWhiteLine (content : Str) : Option Str :=
  (linesOf content).find? (fun l => !isWhiteLine l)

/-- The first line of the content that is not of white space only is, trimmed, the marker:
the condition of the specification when blank means white space as the trim defines it. -/
def MarkerFirstPlain (content : Str) : Prop :=
  ∃ l, firstNonWhiteLine content = some l ∧ TrimSpace l = marker

/-- The ten comments of `TestRSTComment` with the result the test expects. -/
def rstCommentTests : List (Str × Bool) :=
  [ ("//+rst".toList, true),
    ("// +rst".toList, true),
    ("//           +rst\n".toList, true),
    ("/*+rst*/".toList, true),
    ("/* +rst */".toList, true),
    ("/*           +rst */".toList, true),
    ("/*\n+rst */".toList, true),
    ("/* +rst\nfoo */".toList, true),
    ("/* foo\n+rst */".toList, false),
    ("// rst".toList, false) ]

/-! ## Splitting at the first newline -/

theorem hasPrefix_newline (c : Char) (cs : Str) :
    HasPrefix (c :: cs) newline = (c == '\n') := by
  simp [HasPrefix, newline]

theorem indexFrom_newline_none (s : Str) (i : Nat) (h : '\n' ∉ s) :
    IndexFrom newline s i = none := by
  induction s generalizing i with
  | nil => simp [IndexFrom, newline]
  | cons c cs ih =>
    have hc : c ≠ '\n' := fun e => h (by simp [e])
    have hcs : '\n' ∉ cs := fun e => h (by simp [e])
    simp [IndexFrom, hasPrefix_newline, hc, ih _ hcs]

theorem indexFrom_newline_some (head rest : Str) (i : Nat) (h : '\n' ∉ head) :
    IndexFrom newline (head ++ '\n' :: rest) i = some (i + head.length) := by
  induction head generalizing i with
  | nil => simp [IndexFrom, hasPrefix_newline]
  | cons c cs ih =>
    have hc : c ≠ '\n' := fun e => h (by simp [e])
    have hcs : '\n' ∉ cs := fun e => h (by simp [e])
    simp [IndexFrom, hasPrefix_newline, hc, ih _ hcs]
    omega

/-- A text without newline is not cut. -/
theorem splitN_two_whole (s : Str) (h : '\n' ∉ s) : SplitN s newline 2 = [s] := by
  simp [SplitN, genSplitLoop, Index, indexFrom_newline_none s 0 h]

/-- A text with a newline is cut at the first one, which is dropped. -/
theorem splitN_two_cut (head rest : Str) (h : '\n' ∉ head) :
    SplitN (head ++ '\n' :: rest) newline 2 = [head, rest] := by
  have hi := indexFrom_newline_some head rest 0 h
  simp only [SplitN, genSplitLoop, Index, hi]
  simp [newline]

theorem firstLine_no_newline (s : Str) : '\n' ∉ firstLine s := by
  intro h
  have := List.mem_takeWhile_imp h
  simp at this

/-- Every text is its first line alone, or its first line, a newline and a remainder. -/
theorem firstLine_cases (s : Str) :
    ('\n' ∉ s ∧ firstLine s = s) ∨ ∃ rest, s = firstLine s ++ '\n' :: rest := by
  induction s with
  | nil => left; simp [firstLine]
  | cons c cs ih =>
    by_cases hc : c = '\n'
    · right; exact ⟨cs, by simp [firstLine, hc]⟩
    · rcases ih with ⟨h1, h2⟩ | ⟨rest, h⟩
      · left
        refine ⟨by simp [h1, Ne.symm hc], ?_⟩
        unfold firstLine at h2 ⊢
        simp [List.takeWhile_cons, hc, h2]
      · right
        refine ⟨rest, ?_⟩
        unfold firstLine at h ⊢
        simp only [List.takeWhile_cons, bne_iff_ne, ne_eq, hc, not_false_eq_true, if_true,
          List.cons_append]
        exact congrArg _ h

/-- The first piece `parts[0]` always exists and is the first line. -/
theorem splitN_two_head (s : Str) : (SplitN s newline 2)[0]? = some (firstLine s) := by
  rcases firstLine_cases s with ⟨h1, h2⟩ | ⟨rest, h⟩
  · rw [splitN_two_whole s h1, h2]; rfl
  · have := splitN_two_cut (firstLine s) rest (firstLine_no_newline s)
    rw [← h] at this
    rw [this]; rfl

/-- A text that ends with a newline has a newline. -/
theorem newline_mem_of_getLast (s : Str) (h : s.getLast? = some '\n') : '\n' ∈ s :=
  List.mem_of_getLast?_eq_some h

/-! ## Marker detection -/

/-- C1: for a head without newline whose trimmed content is exactly `"+rst"`, `rstComment` on
the text `head + "\n" + rest` returns `(rest, true)`: the payload is everything after the
first newline, unchanged. -/
theorem rstComment_marker_line (head rest : Str) (hline : '\n' ∉ head)
    (hmark : TrimSpace head = marker) :
    rstComment ⟨head ++ newline ++ rest⟩ = some (rest, true) := by
  have hs : head ++ newline ++ rest = head ++ '\n' :: rest := by simp [newline]
  simp [rstComment, hs, splitN_two_cut head rest hline, hmark]

/-- C1 at the text `"+rst\nfoo\n"`: the payload is `"foo\n"`. -/
theorem rstComment_marker_line_witness :
    '\n' ∉ marker ∧ TrimSpace marker = marker ∧
      rstComment ⟨marker ++ newline ++ ['f', 'o', 'o', '\n']⟩
        = some (['f', 'o', 'o', '\n'], true) :=
  ⟨by decide, by decide, rstComment_marker_line marker ['f', 'o', 'o', '\n'] (by decide)
    (by decide)⟩

/-- C2: when the first line of the text, trimmed, is not exactly `"+rst"`, `rstComment`
returns `("", false)`, whatever the later lines are. -/
theorem rstComment_other_first_line (s : Str) (h : TrimSpace (firstLine s) ≠ marker) :
    rstComment ⟨s⟩ = some ([], false) := by
  simp [rstComment, splitN_two_head s, h]

/-- C2 at the text `"foo\n+rst"`, whose second line is the marker. -/
theorem rstComment_other_first_line_witness :
    TrimSpace (firstLine ['f', 'o', 'o', '\n', '+', 'r', 's', 't']) ≠ marker ∧
      rstComment ⟨['f', 'o', 'o', '\n', '+', 'r', 's', 't']⟩ = some ([], false) :=
  ⟨by decide, rstComment_other_first_line ['f', 'o', 'o', '\n', '+', 'r', 's', 't']
    (by decide)⟩

/-- For a line without newline whose trimmed content is exactly `"+rst"`, `rstComment` on the
line followed by its newline returns a match whose payload is the empty string. -/
theorem rstComment_marker_only (head : Str) (hline : '\n' ∉ head)
    (hmark : TrimSpace head = marker) :
    rstComment ⟨head ++ newline⟩ = some ([], true) := by
  have hs : head ++ newline = head ++ '\n' :: [] := by simp [newline]
  simp [rstComment, hs, splitN_two_cut head [] hline, hmark]


/-! ## The byte order of strings -/

theorem char_toNat_lt (c : Char) : c.toNat < 0x110000 := by
  have h := c.valid
  simp only [UInt32.isValidChar, Nat.isValidChar] at h
  have : c.toNat = c.val.toNat := rfl
  omega

theorem char_eq_of_toNat (c d : Char) (h : c.toNat = d.toNat) : c = d := by
  apply Char.ext
  exact UInt32.ext (by simpa [Char.toNat] using h)

/-- The UTF-8 encoding is uniquely decodable: two encodings followed by anything are equal
only for the same code point followed by the same thing. -/
theorem utf8_append_inj (c d : Char) (r s : List Nat) (h : utf8 c ++ r = utf8 d ++ s) :
    c = d ∧ r = s := by
  have hc := char_toNat_lt c
  have hd := char_toNat_lt d
  have key : c.toNat = d.toNat ∧ r = s := by
    unfold utf8 at h
    simp only at h
    split_ifs at h <;> simp only [List.cons_append, List.nil_append, List.cons.injEq] at h <;>
      first
        | (exfalso; omega)
        | (constructor
           · omega
           · first | exact h.2 | exact h.2.2 | exact h.2.2.2 | exact h.2.2.2.2)
  exact ⟨char_eq_of_toNat c d key.1, key.2⟩

theorem bytes_injective (a b : Str) (h : bytes a = bytes b) : a = b := by
  induction a generalizing b with
  | nil =>
    cases b with
    | nil => rfl
    | cons d ds =>
      exfalso
      simp only [bytes] at h
      unfold utf8 at h
      simp only at h
      split_ifs at h <;> simp at h
  | cons c cs ih =>
    cases b with
    | nil =>
      exfalso
      simp only [bytes] at h
      unfold utf8 at h
      simp only at h
      split_ifs at h <;> simp at h
    | cons d ds =>
      simp only [bytes] at h
      obtain ⟨h1, h2⟩ := utf8_append_inj c d _ _ h
      rw [h1, ih ds h2]

theorem bytesLess_irrefl (a : List Nat) : bytesLess a a = false := by
  induction a with
  | nil => rfl
  | cons x xs ih => simp [bytesLess, ih]

theorem bytesLess_trans (a b c : List Nat) (hab : bytesLess a b = true)
    (hbc : bytesLess b c = true) : bytesLess a c = true := by
  induction a generalizing b c with
  | nil =>
    cases b with
    | nil => simp [bytesLess] at hab
    | cons y ys =>
      cases c with
      | nil => simp [bytesLess] at hbc
      | cons z zs => simp [bytesLess]
  | cons x xs ih =>
    cases b with
    | nil => simp [bytesLess] at hab
    | cons y ys =>
      cases c with
      | nil => simp [bytesLess] at hbc
      | cons z zs =>
        simp only [bytesLess] at hab hbc ⊢
        split_ifs at hab hbc ⊢ <;> first
          | rfl
          | omega
          | exact ih ys zs hab hbc

theorem bytesLess_total (a b : List Nat) (h : a ≠ b) :
    bytesLess a b = true ∨ bytesLess b a = true := by
  induction a generalizing b with
  | nil =>
    cases b with
    | nil => exact absurd rfl h
    | cons y ys => left; simp [bytesLess]
  | cons x xs ih =>
    cases b with
    | nil => right; simp [bytesLess]
    | cons y ys =>
      simp only [bytesLess]
      rcases Nat.lt_trichotomy x y with hxy | hxy | hxy
      · left; simp [hxy]
      · subst hxy
        have hne : xs ≠ ys := fun e => h (by rw [e])
        simpa using ih ys hne
      · right; simp [hxy]

theorem strLess_irrefl (a : Str) : strLess a a = false := bytesLess_irrefl _

theorem strLess_trans (a b c : Str) (hab : strLess a b = true) (hbc : strLess b c = true) :
    strLess a c = true := bytesLess_trans _ _ _ hab hbc

theorem strLess_total (a b : Str) (h : a ≠ b) : strLess a b = true ∨ strLess b a = true :=
  bytesLess_total _ _ (fun e => h (bytes_injective a b e))

/-! ## The comparison of base names is a strict total order -/

theorem lessNames_irrefl (P a : Str) : LessNames P a a = false := by
  unfold LessNames
  split_ifs <;> simp_all [strLess_irrefl]

theorem lessNames_trans (P a b c : Str) (hab : LessNames P a b = true)
    (hbc : LessNames P b c = true) : LessNames P a c = true := by
  unfold LessNames at hab hbc ⊢
  split_ifs at hab hbc ⊢ <;> simp_all
  exact strLess_trans a b c hab hbc

theorem lessNames_total (P a b : Str) (h : a ≠ b) :
    LessNames P a b = true ∨ LessNames P b a = true := by
  have hs := strLess_total a b h
  unfold LessNames
  split_ifs <;> simp_all

theorem lessNames_asymm (P a b : Str) (hab : LessNames P a b = true) :
    LessNames P b a = false := by
  cases hba : LessNames P b a with
  | false => rfl
  | true =>
    have := lessNames_trans P a b a hab hba
    rw [lessNames_irrefl] at this
    exact absurd this (by simp)

/-- When `x` is not before `y` and `y` is not before `z`, `x` is not before `z`. -/
theorem lessNames_not_trans (P x y z : Str) (hxy : LessNames P x y = false)
    (hyz : LessNames P y z = false) : LessNames P x z = false := by
  cases hxz : LessNames P x z with
  | false => rfl
  | true =>
    exfalso
    by_cases e : y = x
    · subst e; rw [hxz] at hyz; exact absurd hyz (by simp)
    · rcases lessNames_total P y x e with h | h
      · have := lessNames_trans P y x z h hxz
        rw [this] at hyz; exact absurd hyz (by simp)
      · rw [h] at hxy; exact absurd hxy (by simp)

/-- Nothing is before a name equal to the package name. -/
theorem lessNames_pkg_right (P a : Str) : LessNames P a P = false := by
  unfold LessNames
  split_ifs <;> simp_all

/-- The package name is before every other name. -/
theorem lessNames_pkg_left (P b : Str) (h : b ≠ P) : LessNames P P b = true := by
  unfold LessNames
  split_ifs <;> simp_all

/-- The name `"doc"` is before every name other than itself and the package name. -/
theorem lessNames_doc_left (P b : Str) (hP : b ≠ P) (hd : b ≠ doc) :
    LessNames P doc b = true := by
  unfold LessNames
  split_ifs <;> simp_all

/-- Between names other than the package name and `"doc"`, the byte order decides. -/
theorem lessNames_other (P a b : Str) (haP : a ≠ P) (had : a ≠ doc) (hbP : b ≠ P)
    (hbd : b ≠ doc) : LessNames P a b = strLess a b := by
  unfold LessNames
  split_ifs <;> simp_all


/-! ## `sort.Sort` on a `fileSorter` -/

theorem getElem?_adjacent {α : Type} (pre post : List α) (x y : α) :
    (pre ++ y :: x :: post)[pre.length + 1]? = some x ∧
      (pre ++ y :: x :: post)[pre.length]? = some y := by
  constructor
  · rw [List.getElem?_append_right (by omega)]; simp
  · rw [List.getElem?_append_right (by omega)]; simp

theorem set_adjacent {α : Type} (pre post : List α) (x y : α) :
    ((pre ++ y :: x :: post).set (pre.length + 1) y).set pre.length x
      = pre ++ x :: y :: post := by
  induction pre with
  | nil => simp
  | cons p pre ih => simp [ih]

theorem swapAt_adjacent {α : Type} (pre post : List α) (x y : α) :
    swapAt (pre ++ y :: x :: post) (pre.length + 1) pre.length
      = some (pre ++ x :: y :: post) := by
  have h := getElem?_adjacent pre post x y
  simp only [swapAt, h.1, h.2, set_adjacent]

theorem less_ofPairs (pkg : Package) (pre post : List (Str × File)) (x y : Str × File) :
    (fileSorter.ofPairs pkg (pre ++ y :: x :: post)).Less (pre.length + 1) pre.length
      = some (LessNames pkg.Name x.1 y.1) := by
  have h := getElem?_adjacent (pre.map Prod.fst) (post.map Prod.fst) x.1 y.1
  simp only [List.length_map] at h
  simp [fileSorter.Less, fileSorter.ofPairs, h.1, h.2]

theorem swap_ofPairs (pkg : Package) (pre post : List (Str × File)) (x y : Str × File) :
    (fileSorter.ofPairs pkg (pre ++ y :: x :: post)).Swap (pre.length + 1) pre.length
      = some (fileSorter.ofPairs pkg (pre ++ x :: y :: post)) := by
  have h1 := swapAt_adjacent (pre.map Prod.fst) (post.map Prod.fst) x.1 y.1
  have h2 := swapAt_adjacent (pre.map Prod.snd) (post.map Prod.snd) x.2 y.2
  simp only [List.length_map] at h1 h2
  simp [fileSorter.Swap, fileSorter.ofPairs, h1, h2]

theorem insertRev_length (P : Str) (x : Str × File) (rp : List (Str × File)) :
    (insertRev P x rp).length = rp.length + 1 := by
  induction rp with
  | nil => rfl
  | cons y rp ih =>
    unfold insertRev
    split_ifs <;> simp [ih]

/-- The inner loop started at the end of the prefix inserts the next element in it. -/
theorem insertionSortInner_ofPairs (pkg : Package) (rp post : List (Str × File))
    (x : Str × File) :
    insertionSortInner rp.length (fileSorter.ofPairs pkg (rp.reverse ++ x :: post))
      = some (fileSorter.ofPairs pkg (insertRev pkg.Name x rp ++ post)) := by
  induction rp generalizing post with
  | nil => simp [insertionSortInner, insertRev]
  | cons y rp ih =>
    have hl : (y :: rp).reverse ++ x :: post = rp.reverse ++ y :: x :: post := by simp
    have hless := less_ofPairs pkg rp.reverse post x y
    have hswap := swap_ofPairs pkg rp.reverse post x y
    simp only [List.length_reverse] at hless hswap
    rw [hl]
    simp only [List.length_cons, insertionSortInner, hless]
    cases hc : LessNames pkg.Name x.1 y.1 with
    | false => simp [insertRev, hc]
    | true =>
      simp only [hswap, insertRev, hc, if_true]
      rw [ih (y :: post)]
      simp

/-- The outer loop sorts the rest of the list into the prefix. -/
theorem insertionSortOuter_ofPairs (pkg : Package) (done rest : List (Str × File)) :
    insertionSortOuter rest.length done.length (fileSorter.ofPairs pkg (done ++ rest))
      = some (fileSorter.ofPairs pkg (sortFrom pkg.Name done rest)) := by
  induction rest generalizing done with
  | nil => simp [insertionSortOuter, sortFrom]
  | cons x rest ih =>
    have hin := insertionSortInner_ofPairs pkg done.reverse rest x
    simp only [List.length_reverse, List.reverse_reverse] at hin
    simp only [List.length_cons, insertionSortOuter, hin, sortFrom]
    have hlen : (insertRev pkg.Name x done.reverse).length = done.length + 1 := by
      rw [insertRev_length]; simp
    rw [← hlen]
    exact ih _


/-- The sort returns, with the list of (name, file) pairs sorted by insertion. -/
theorem sortSort_ofPairs (pkg : Package) (ps : List (Str × File)) :
    sortSort (fileSorter.ofPairs pkg ps)
      = some (fileSorter.ofPairs pkg (sortFrom pkg.Name [] ps)) := by
  cases ps with
  | nil => simp [sortSort, fileSorter.Len, fileSorter.ofPairs, insertionSortOuter, sortFrom]
  | cons x rest =>
    have h := insertionSortOuter_ofPairs pkg [x] rest
    simp only [List.length_singleton, List.singleton_append] at h
    simp only [sortSort, fileSorter.Len, fileSorter.ofPairs, List.map_cons, List.length_cons,
      List.length_map, Nat.add_sub_cancel]
    simp only [fileSorter.ofPairs, List.map_cons] at h
    rw [h]
    simp [sortFrom, insertRev]

theorem foldl_appendEntry (pkg : Package) (acc : List (Str × File)) (l : List (Str × File)) :
    l.foldl appendEntry (fileSorter.ofPairs pkg acc)
      = fileSorter.ofPairs pkg (acc ++ l.map (fun e => (baseName e.1, e.2))) := by
  induction l generalizing acc with
  | nil => simp
  | cons e l ih =>
    have h : appendEntry (fileSorter.ofPairs pkg acc) e
        = fileSorter.ofPairs pkg (acc ++ [(baseName e.1, e.2)]) := by
      simp [appendEntry, fileSorter.ofPairs]
    simp only [List.foldl_cons, h, ih, List.map_cons]
    simp

/-- The function `newFileSorter` returns: its result holds the names and the files of the
sorted entries. -/
theorem newFileSorter_eq (pkg : Package) :
    newFileSorter pkg = some (fileSorter.ofPairs pkg (sortedEntries pkg)) := by
  have h := foldl_appendEntry pkg [] pkg.Files
  simp only [fileSorter.ofPairs, List.map_nil, List.nil_append] at h
  unfold newFileSorter
  rw [h]
  exact sortSort_ofPairs pkg _

theorem insertRev_perm (P : Str) (x : Str × File) (rp : List (Str × File)) :
    (insertRev P x rp).Perm (rp.reverse ++ [x]) := by
  induction rp with
  | nil => simp [insertRev]
  | cons y rp ih =>
    unfold insertRev
    split_ifs
    · have h1 : (insertRev P x rp ++ [y]).Perm ((rp.reverse ++ [x]) ++ [y]) :=
        List.Perm.append_right [y] ih
      refine h1.trans ?_
      simp only [List.reverse_cons, List.append_assoc]
      exact List.Perm.append_left _ (List.Perm.swap y x [])
    · exact List.Perm.refl _

theorem sortFrom_perm (P : Str) (done rest : List (Str × File)) :
    (sortFrom P done rest).Perm (done ++ rest) := by
  induction rest generalizing done with
  | nil => simp [sortFrom]
  | cons x rest ih =>
    unfold sortFrom
    refine (ih _).trans ?_
    have h := insertRev_perm P x done.reverse
    simp only [List.reverse_reverse] at h
    have h2 := List.Perm.append_right rest h
    simpa using h2

theorem insertRev_ordered (P : Str) (x : Str × File) (rp : List (Str × File))
    (h : Ordered P (rp.reverse.map Prod.fst)) :
    Ordered P ((insertRev P x rp).map Prod.fst) := by
  induction rp with
  | nil => simp [insertRev, Ordered]
  | cons y rp ih =>
    unfold Ordered at h ih ⊢
    simp only [List.reverse_cons, List.map_append, List.map_cons, List.map_nil,
      List.pairwise_append, List.pairwise_singleton, List.mem_singleton, forall_eq,
      true_and] at h
    obtain ⟨hrp, hy⟩ := h
    unfold insertRev
    split_ifs with hc
    · simp only [List.map_append, List.map_cons, List.map_nil, List.pairwise_append,
        List.pairwise_singleton, List.mem_singleton, forall_eq, true_and]
      refine ⟨ih hrp, ?_⟩
      intro a ha
      have hmem := (List.Perm.map Prod.fst (insertRev_perm P x rp)).mem_iff.mp ha
      simp only [List.map_append, List.map_cons, List.map_nil, List.mem_append,
        List.mem_singleton] at hmem
      rcases hmem with hm | hm
      · exact hy a hm
      · rw [hm]; exact lessNames_asymm P x.1 y.1 hc
    · simp only [List.reverse_cons, List.map_append, List.map_cons, List.map_nil,
        List.pairwise_append, List.pairwise_singleton, List.mem_singleton, forall_eq,
        true_and, List.mem_append]
      have hxy : LessNames P x.1 y.1 = false := by simpa using hc
      refine ⟨⟨hrp, hy⟩, ?_⟩
      intro a ha
      rcases ha with hm | hm
      · exact lessNames_not_trans P x.1 y.1 a hxy (hy a hm)
      · rw [hm]; exact hxy

theorem sortFrom_ordered (P : Str) (done rest : List (Str × File))
    (h : Ordered P (done.map Prod.fst)) :
    Ordered P ((sortFrom P done rest).map Prod.fst) := by
  induction rest generalizing done with
  | nil => simpa [sortFrom] using h
  | cons x rest ih =>
    unfold sortFrom
    apply ih
    apply insertRev_ordered
    simpa using h

theorem sortedEntries_perm (pkg : Package) : (sortedEntries pkg).Perm (entries pkg) := by
  simpa [sortedEntries] using sortFrom_perm pkg.Name [] (entries pkg)

theorem sortedEntries_ordered (pkg : Package) :
    Ordered pkg.Name ((sortedEntries pkg).map Prod.fst) :=
  sortFrom_ordered pkg.Name [] (entries pkg) (by simp [Ordered])


/-! ## Extraction -/

/-- On a text that the normalizer can return, `rstComment` returns. -/
theorem rstComment_returns (s : Str) (h : Normalized s) : ∃ r, rstComment ⟨s⟩ = some r := by
  rcases firstLine_cases s with ⟨h1, _⟩ | ⟨rest, hcut⟩
  · have hs : s = [] := by
      rcases h with h | h
      · exact h
      · exact absurd (newline_mem_of_getLast s h) h1
    subst hs
    exact ⟨([], false), by decide⟩
  · have hsplit := splitN_two_cut (firstLine s) rest (firstLine_no_newline s)
    rw [← hcut] at hsplit
    by_cases hm : TrimSpace (firstLine s) = marker
    · exact ⟨(rest, true), by simp [rstComment, hsplit, hm]⟩
    · exact ⟨([], false), by simp [rstComment, hsplit, hm]⟩

theorem commentsLoop_eq (cs : List CommentGroup) (acc : List Str)
    (h : ∀ c ∈ cs, ∃ r, rstComment c = some r) :
    commentsLoop cs acc = some (acc ++ cs.filterMap payloadOf) := by
  induction cs generalizing acc with
  | nil => simp [commentsLoop]
  | cons c cs ih =>
    obtain ⟨⟨p, ok⟩, hr⟩ := h c (by simp)
    have hcs : ∀ c ∈ cs, ∃ r, rstComment c = some r := fun d hd => h d (by simp [hd])
    cases ok with
    | true =>
      simp [commentsLoop, hr, ih _ hcs, List.filterMap_cons, payloadOf]
    | false =>
      simp [commentsLoop, hr, ih _ hcs, List.filterMap_cons, payloadOf]

theorem filesLoop_eq (files : List File) (acc : List Str)
    (h : ∀ f ∈ files, ∀ c ∈ f.Comments, ∃ r, rstComment c = some r) :
    filesLoop files acc = some (acc ++ extractSpec files) := by
  induction files generalizing acc with
  | nil => simp [filesLoop, extractSpec]
  | cons f files ih =>
    have hf := commentsLoop_eq f.Comments acc (h f (by simp))
    have hfs : ∀ g ∈ files, ∀ c ∈ g.Comments, ∃ r, rstComment c = some r :=
      fun g hg => h g (by simp [hg])
    simp only [filesLoop, hf, ih _ hfs]
    simp [extractSpec]

/-- The files of the sorted entries are files of the package. -/
theorem mem_sortedEntries_files (pkg : Package) (f : File)
    (hf : f ∈ (sortedEntries pkg).map Prod.snd) : ∃ e ∈ pkg.Files, e.2 = f := by
  obtain ⟨z, hz, hzf⟩ := List.mem_map.mp hf
  have hz2 := (sortedEntries_perm pkg).mem_iff.mp hz
  obtain ⟨e, he, hez⟩ := List.mem_map.mp hz2
  exact ⟨e, he, by rw [← hzf, ← hez]⟩

/-- When every comment text of the package has the shape the normalizer returns,
`parsePackage` returns the sequence of the specification over the sorted files. -/
theorem parsePackage_eq (pkg : Package)
    (h : ∀ e ∈ pkg.Files, ∀ c ∈ e.2.Comments, Normalized c.Text) :
    parsePackage pkg = some (extractSpec ((sortedEntries pkg).map Prod.snd)) := by
  have hret : ∀ f ∈ (sortedEntries pkg).map Prod.snd, ∀ c ∈ f.Comments,
      ∃ r, rstComment c = some r := by
    intro f hf c hc
    obtain ⟨e, he, hef⟩ := mem_sortedEntries_files pkg f hf
    exact rstComment_returns c.Text (h e he c (by rw [hef]; exact hc))
  have hloop := filesLoop_eq _ [] hret
  simp only [parsePackage, newFileSorter_eq, fileSorter.ofPairs, hloop, List.nil_append]


/-- C4: on a text that is empty or ends with a newline, `rstComment` reads `parts[0]` and
`parts[1]` within the split and returns; `parsePackage` on a package whose comment texts all
have that shape returns a sequence. -/
theorem rstComment_parsePackage_total (s : Str) (pkg : Package) (hs : Normalized s)
    (hpkg : ∀ e ∈ pkg.Files, ∀ c ∈ e.2.Comments, Normalized c.Text) :
    (0 < (SplitN s newline 2).length ∧
      ∀ p0, (SplitN s newline 2)[0]? = some p0 → TrimSpace p0 = marker →
        1 < (SplitN s newline 2).length) ∧
    (∃ r, rstComment ⟨s⟩ = some r) ∧
    ∃ comments, parsePackage pkg = some comments := by
  refine ⟨?_, rstComment_returns s hs, ⟨_, parsePackage_eq pkg hpkg⟩⟩
  rcases firstLine_cases s with ⟨h1, _⟩ | ⟨rest, hcut⟩
  · have he : s = [] := by
      rcases hs with h | h
      · exact h
      · exact absurd (newline_mem_of_getLast s h) h1
    subst he
    refine ⟨by decide, ?_⟩
    intro p0 hp0 hm
    have : p0 = [] := by
      have h0 : (SplitN [] newline 2)[0]? = some [] := by decide
      rw [h0] at hp0
      exact (Option.some.inj hp0).symm
    subst this
    exact absurd hm (by decide)
  · have hsplit := splitN_two_cut (firstLine s) rest (firstLine_no_newline s)
    rw [← hcut] at hsplit
    rw [hsplit]
    exact ⟨by simp, fun _ _ _ => by simp⟩

/-- C4 at the text `"+rst\n"` and the sample package `test`. -/
theorem rstComment_parsePackage_total_witness :
    Normalized (marker ++ newline) ∧
    (∀ e ∈ testPackage.Files, ∀ c ∈ e.2.Comments, Normalized c.Text) ∧
    (∃ r, rstComment ⟨marker ++ newline⟩ = some r) ∧
    ∃ comments, parsePackage testPackage = some comments :=
  ⟨by decide, by decide,
    (rstComment_parsePackage_total (marker ++ newline) testPackage (by decide) (by decide)).2⟩

/-- C5: on a package whose comment texts are what the normalizer returns, `parsePackage`
returns exactly this sequence: the files in the order of `newFileSorter`, for each file its
comment blocks in source order, the payload of each block that `rstComment` matches, the
other blocks dropped. -/
theorem parsePackage_sequence (pkg : Package)
    (h : ∀ e ∈ pkg.Files, ∀ c ∈ e.2.Comments, Normalized c.Text) :
    ∃ fs, newFileSorter pkg = some fs ∧ parsePackage pkg = some (extractSpec fs.files) :=
  ⟨_, newFileSorter_eq pkg, by simpa [fileSorter.ofPairs] using parsePackage_eq pkg h⟩

/-- C5 at the sample package `test`. -/
theorem parsePackage_sequence_witness :
    (∀ e ∈ testPackage.Files, ∀ c ∈ e.2.Comments, Normalized c.Text) ∧
    ∃ fs, newFileSorter testPackage = some fs ∧
      parsePackage testPackage = some (extractSpec fs.files) :=
  ⟨by decide, parsePackage_sequence testPackage (by decide)⟩


/-! ## The order of the files -/

theorem zip_fst_snd {α β : Type} (l : List (α × β)) :
    (l.map Prod.fst).zip (l.map Prod.snd) = l := by
  induction l with
  | nil => rfl
  | cons x l ih => simp [ih]

/-- C6: `newFileSorter` returns a file list and a name list of the length of the package's
file collection, and they are, position by position, a permutation of the member files with
their base names: no file is lost or repeated. -/
theorem newFileSorter_permutation (pkg : Package) :
    ∃ fs, newFileSorter pkg = some fs ∧
      fs.files.length = pkg.Files.length ∧ fs.names.length = pkg.Files.length ∧
      (fs.names.zip fs.files).Perm (pkg.Files.map (fun e => (baseName e.1, e.2))) ∧
      fs.files.Perm (pkg.Files.map Prod.snd) ∧
      fs.names.Perm (pkg.Files.map (fun e => baseName e.1)) := by
  have hp := sortedEntries_perm pkg
  have hlen : (sortedEntries pkg).length = pkg.Files.length := by
    rw [hp.length_eq]; simp [entries]
  refine ⟨_, newFileSorter_eq pkg, ?_, ?_, ?_, ?_, ?_⟩
  · simp [fileSorter.ofPairs, hlen]
  · simp [fileSorter.ofPairs, hlen]
  · simp only [fileSorter.ofPairs, zip_fst_snd]
    exact hp
  · have := List.Perm.map Prod.snd hp
    simpa [fileSorter.ofPairs, entries, Function.comp_def] using this
  · have := List.Perm.map Prod.fst hp
    simpa [fileSorter.ofPairs, entries, Function.comp_def] using this

/-- In an ordered list that holds the package name, the first name is the package name. -/
theorem ordered_head_pkg (P n : Str) (ns : List Str) (ho : Ordered P (n :: ns))
    (hmem : P ∈ n :: ns) : n = P := by
  by_contra hne
  have htail : P ∈ ns := by
    rcases List.mem_cons.mp hmem with h | h
    · exact absurd h.symm hne
    · exact h
  have h1 := (List.pairwise_cons.mp ho).1 P htail
  rw [lessNames_pkg_left P n hne] at h1
  exact absurd h1 (by simp)

/-- In an ordered list that holds `"doc"` and not the package name, the first name is
`"doc"`. -/
theorem ordered_head_doc (P n : Str) (ns : List Str) (ho : Ordered P (n :: ns))
    (hmem : doc ∈ n :: ns) (hP : P ∉ n :: ns) : n = doc := by
  by_contra hne
  have htail : doc ∈ ns := by
    rcases List.mem_cons.mp hmem with h | h
    · exact absurd h.symm hne
    · exact h
  have hnP : n ≠ P := fun e => hP (by simp [e])
  have h1 := (List.pairwise_cons.mp ho).1 doc htail
  rw [lessNames_doc_left P n hnP hne] at h1
  exact absurd h1 (by simp)

/-- An entry of the sorted list comes from a member file of the package. -/
theorem mem_sortedEntries (pkg : Package) (z : Str × File) (hz : z ∈ sortedEntries pkg) :
    ∃ e ∈ pkg.Files, z = (baseName e.1, e.2) := by
  have hz2 := (sortedEntries_perm pkg).mem_iff.mp hz
  obtain ⟨e, he, hez⟩ := List.mem_map.mp hz2
  exact ⟨e, he, hez.symm⟩

/-- A member file of the package is in the sorted list, with its base name. -/
theorem sortedEntries_mem (pkg : Package) (e : Str × File) (he : e ∈ pkg.Files) :
    (baseName e.1, e.2) ∈ sortedEntries pkg :=
  (sortedEntries_perm pkg).mem_iff.mpr (List.mem_map.mpr ⟨e, he, rfl⟩)

/-- C7: when a member file has the package name as base name, `newFileSorter` returns and
the first name of its result is the package name, the first file being a member file with
that base name; the package name may be `"doc"`. -/
theorem newFileSorter_pkg_first (pkg : Package)
    (h : ∃ e ∈ pkg.Files, baseName e.1 = pkg.Name) :
    ∃ fs, newFileSorter pkg = some fs ∧ fs.names.head? = some pkg.Name ∧
      ∃ e ∈ pkg.Files, baseName e.1 = pkg.Name ∧ fs.files.head? = some e.2 := by
  obtain ⟨e, he, hname⟩ := h
  have hmem := sortedEntries_mem pkg e he
  have hord := sortedEntries_ordered pkg
  refine ⟨_, newFileSorter_eq pkg, ?_⟩
  cases hL : sortedEntries pkg with
  | nil => rw [hL] at hmem; exact absurd hmem (by simp)
  | cons z L =>
    rw [hL] at hord
    simp only [List.map_cons] at hord
    have hP : pkg.Name ∈ z.1 :: L.map Prod.fst := by
      have h1 : (baseName e.1, e.2).1 ∈ (sortedEntries pkg).map Prod.fst :=
        List.mem_map_of_mem Prod.fst hmem
      rw [hL] at h1
      rw [← hname]
      exact h1
    have hz := ordered_head_pkg pkg.Name z.1 _ hord hP
    obtain ⟨e2, he2, hz2⟩ := mem_sortedEntries pkg z (by rw [hL]; simp)
    refine ⟨by simp [fileSorter.ofPairs, hz], e2, he2, ?_, ?_⟩
    · rw [← hz, hz2]
    · simp [fileSorter.ofPairs, hz2]

/-- C7 at the sample package `doc`, whose name is `"doc"`: the file `doc.go` comes first. -/
theorem newFileSorter_pkg_first_witness :
    (∃ e ∈ docPackage.Files, baseName e.1 = docPackage.Name) ∧
    ∃ fs, newFileSorter docPackage = some fs ∧ fs.names.head? = some docPackage.Name ∧
      ∃ e ∈ docPackage.Files, baseName e.1 = docPackage.Name ∧ fs.files.head? = some e.2 :=
  ⟨by decide, newFileSorter_pkg_first docPackage (by decide)⟩


/-- The names of the sorted list are the base names of the member files, reordered. -/
theorem sortedEntries_names_perm (pkg : Package) :
    ((sortedEntries pkg).map Prod.fst).Perm (pkg.Files.map (fun e => baseName e.1)) := by
  have := List.Perm.map Prod.fst (sortedEntries_perm pkg)
  simpa [entries, Function.comp_def] using this

/-- With pairwise distinct base names, the entry of the sorted list that bears the base name
of a member file is that file. -/
theorem sortedEntries_unique (pkg : Package)
    (hnodup : (pkg.Files.map (fun e => baseName e.1)).Nodup) (z e : Str × File)
    (hz : z ∈ sortedEntries pkg) (he : e ∈ pkg.Files) (hname : z.1 = baseName e.1) :
    z = (baseName e.1, e.2) := by
  obtain ⟨e2, he2, hz2⟩ := mem_sortedEntries pkg z hz
  have h12 : baseName e2.1 = baseName e.1 := by rw [← hname, hz2]
  have := List.inj_on_of_nodup_map hnodup he2 he h12
  rw [hz2, this]

/-- C8: in a package whose member files have pairwise distinct base names and that has a
file `d` of base name `"doc"`, `newFileSorter` returns; when no base name is the package
name, `"doc"` and `d` come first; when another file `u` has the package name as base name,
`u` comes first and `d` second. -/
theorem newFileSorter_doc_place (pkg : Package) (d : Str × File)
    (hnodup : (pkg.Files.map (fun e => baseName e.1)).Nodup)
    (hd : d ∈ pkg.Files) (hdoc : baseName d.1 = doc) :
    ∃ fs, newFileSorter pkg = some fs ∧
      ((∀ e ∈ pkg.Files, baseName e.1 ≠ pkg.Name) →
        fs.names.head? = some doc ∧ fs.files.head? = some d.2) ∧
      (∀ u ∈ pkg.Files, u ≠ d → baseName u.1 = pkg.Name →
        fs.names.take 2 = [pkg.Name, doc] ∧ fs.files.take 2 = [u.2, d.2]) := by
  have hdmem := sortedEntries_mem pkg d hd
  have hord := sortedEntries_ordered pkg
  have hnd : ((sortedEntries pkg).map Prod.fst).Nodup :=
    (sortedEntries_names_perm pkg).nodup_iff.mpr hnodup
  have huniq := sortedEntries_unique pkg hnodup
  refine ⟨_, newFileSorter_eq pkg, ?_, ?_⟩
  · intro hno
    cases hL : sortedEntries pkg with
    | nil => rw [hL] at hdmem; exact absurd hdmem (by simp)
    | cons z L =>
      rw [hL] at hord hdmem
      simp only [List.map_cons] at hord
      have hdn : doc ∈ z.1 :: L.map Prod.fst := by
        have h1 : (baseName d.1, d.2).1 ∈ (z :: L).map Prod.fst :=
          List.mem_map_of_mem Prod.fst hdmem
        rw [← hdoc]
        exact h1
      have hPn : pkg.Name ∉ z.1 :: L.map Prod.fst := by
        intro hmem
        have h1 : pkg.Name ∈ (z :: L).map Prod.fst := hmem
        obtain ⟨w, hw, hwn⟩ := List.mem_map.mp h1
        obtain ⟨e, he, hwe⟩ := mem_sortedEntries pkg w (by rw [hL]; exact hw)
        exact hno e he (by rw [← hwn, hwe])
      have hz := ordered_head_doc pkg.Name z.1 _ hord hdn hPn
      have hzd := huniq z d (by rw [hL]; simp) hd (by rw [hz, hdoc])
      constructor
      · simp [fileSorter.ofPairs, hz]
      · simp [fileSorter.ofPairs, hzd]
  · intro u hu hud huP
    have hPd : pkg.Name ≠ doc := by
      intro e
      exact hud (List.inj_on_of_nodup_map hnodup hu hd (by rw [huP, hdoc, e]))
    have humem := sortedEntries_mem pkg u hu
    cases hL : sortedEntries pkg with
    | nil => rw [hL] at hdmem; exact absurd hdmem (by simp)
    | cons z L =>
      rw [hL] at hord hdmem humem hnd
      simp only [List.map_cons] at hord hnd
      have hPn : pkg.Name ∈ z.1 :: L.map Prod.fst := by
        have h1 : (baseName u.1, u.2).1 ∈ (z :: L).map Prod.fst :=
          List.mem_map_of_mem Prod.fst humem
        rw [← huP]
        exact h1
      have hz := ordered_head_pkg pkg.Name z.1 _ hord hPn
      have hzu := huniq z u (by rw [hL]; simp) hu (by rw [hz, huP])
      have hdL : (baseName d.1, d.2) ∈ L := by
        rcases List.mem_cons.mp hdmem with h | h
        · exfalso
          have : doc = pkg.Name := by rw [← hdoc, ← hz, ← h]
          exact hPd this.symm
        · exact h
      cases hL2 : L with
      | nil => rw [hL2] at hdL; exact absurd hdL (by simp)
      | cons z2 L2 =>
        rw [hL2] at hord hnd hdL
        simp only [List.map_cons] at hord hnd
        have hord2 : Ordered pkg.Name (z2.1 :: L2.map Prod.fst) :=
          (List.pairwise_cons.mp hord).2
        have hdn : doc ∈ z2.1 :: L2.map Prod.fst := by
          have h1 : (baseName d.1, d.2).1 ∈ (z2 :: L2).map Prod.fst :=
            List.mem_map_of_mem Prod.fst hdL
          rw [← hdoc]
          exact h1
        have hPn2 : pkg.Name ∉ z2.1 :: L2.map Prod.fst := by
          rw [← hz]
          exact (List.nodup_cons.mp hnd).1
        have hz2 := ordered_head_doc pkg.Name z2.1 _ hord2 hdn hPn2
        have hzd := huniq z2 d (by rw [hL, hL2]; simp) hd (by rw [hz2, hdoc])
        constructor
        · simp [fileSorter.ofPairs, hz, hz2]
        · simp [fileSorter.ofPairs, hzu, hzd]


/-- C8 at the sample package `main`, which has no file `main.go`, and at the sample package
`test`, which has a file `test.go`. -/
theorem newFileSorter_doc_place_witness :
    ((mainPackage.Files.map (fun e => baseName e.1)).Nodup ∧ docEntry ∈ mainPackage.Files ∧
      baseName docEntry.1 = doc ∧ (∀ e ∈ mainPackage.Files, baseName e.1 ≠ mainPackage.Name) ∧
      ∃ fs, newFileSorter mainPackage = some fs ∧
        fs.names.head? = some doc ∧ fs.files.head? = some docEntry.2) ∧
    ((testPackage.Files.map (fun e => baseName e.1)).Nodup ∧ docEntry ∈ testPackage.Files ∧
      testEntry ∈ testPackage.Files ∧ testEntry ≠ docEntry ∧
      baseName testEntry.1 = testPackage.Name ∧
      ∃ fs, newFileSorter testPackage = some fs ∧
        fs.names.take 2 = [testPackage.Name, doc] ∧
        fs.files.take 2 = [testEntry.2, docEntry.2]) := by
  refine ⟨⟨by decide, by decide, by decide, by decide, ?_⟩,
    ⟨by decide, by decide, by decide, by decide, by decide, ?_⟩⟩
  · obtain ⟨fs, hfs, h1, _⟩ :=
      newFileSorter_doc_place mainPackage docEntry (by decide) (by decide) (by decide)
    exact ⟨fs, hfs, h1 (by decide)⟩
  · obtain ⟨fs, hfs, _, h2⟩ :=
      newFileSorter_doc_place testPackage docEntry (by decide) (by decide) (by decide)
    exact ⟨fs, hfs, h2 testEntry (by decide) (by decide) (by decide)⟩

/-- C9: for two member files whose base names are neither the package name nor `"doc"`, the
first base name being smaller than the second in the byte order, `newFileSorter` returns,
both files are in its result at the position of their names, and every position of the
smaller name is before every position of the greater one. -/
theorem newFileSorter_lexicographic (pkg : Package) (e1 e2 : Str × File)
    (h1 : e1 ∈ pkg.Files) (h2 : e2 ∈ pkg.Files)
    (h1P : baseName e1.1 ≠ pkg.Name) (h1d : baseName e1.1 ≠ doc)
    (h2P : baseName e2.1 ≠ pkg.Name) (h2d : baseName e2.1 ≠ doc)
    (hlt : strLess (baseName e1.1) (baseName e2.1) = true) :
    ∃ fs, newFileSorter pkg = some fs ∧
      (∃ i j : Nat, i < j ∧
        fs.names[i]? = some (baseName e1.1) ∧ fs.files[i]? = some e1.2 ∧
        fs.names[j]? = some (baseName e2.1) ∧ fs.files[j]? = some e2.2) ∧
      (∀ i j : Nat, fs.names[i]? = some (baseName e1.1) → fs.names[j]? = some (baseName e2.1) →
        i < j) := by
  have hord := sortedEntries_ordered pkg
  have hless : LessNames pkg.Name (baseName e1.1) (baseName e2.1) = true := by
    rw [lessNames_other pkg.Name _ _ h1P h1d h2P h2d]; exact hlt
  have hne : baseName e1.1 ≠ baseName e2.1 := by
    intro e
    rw [e, strLess_irrefl] at hlt
    exact absurd hlt (by simp)
  have hall : ∀ i j : Nat, ((sortedEntries pkg).map Prod.fst)[i]? = some (baseName e1.1) →
      ((sortedEntries pkg).map Prod.fst)[j]? = some (baseName e2.1) → i < j := by
    intro i j hi hj
    obtain ⟨hil, hie⟩ := List.getElem?_eq_some.mp hi
    obtain ⟨hjl, hje⟩ := List.getElem?_eq_some.mp hj
    rcases Nat.lt_trichotomy i j with h | h | h
    · exact h
    · exfalso
      subst h
      exact hne (by rw [← hie, ← hje])
    · exfalso
      have := List.pairwise_iff_getElem.mp hord j i hjl hil h
      rw [hie, hje, hless] at this
      exact absurd this (by simp)
  obtain ⟨i, hi⟩ := List.mem_iff_getElem?.mp (sortedEntries_mem pkg e1 h1)
  obtain ⟨j, hj⟩ := List.mem_iff_getElem?.mp (sortedEntries_mem pkg e2 h2)
  have hin : ((sortedEntries pkg).map Prod.fst)[i]? = some (baseName e1.1) := by
    rw [List.getElem?_map, hi]; rfl
  have hjn : ((sortedEntries pkg).map Prod.fst)[j]? = some (baseName e2.1) := by
    rw [List.getElem?_map, hj]; rfl
  have hif : ((sortedEntries pkg).map Prod.snd)[i]? = some e1.2 := by
    rw [List.getElem?_map, hi]; rfl
  have hjf : ((sortedEntries pkg).map Prod.snd)[j]? = some e2.2 := by
    rw [List.getElem?_map, hj]; rfl
  exact ⟨_, newFileSorter_eq pkg, ⟨i, j, hall i j hin hjn, hin, hif, hjn, hjf⟩, hall⟩

/-- C9 at the files `a.go` and `z.go` of the sample package `test`. -/
theorem newFileSorter_lexicographic_witness :
    aEntry ∈ testPackage.Files ∧ zEntry ∈ testPackage.Files ∧
    strLess (baseName aEntry.1) (baseName zEntry.1) = true ∧
    ∃ fs, newFileSorter testPackage = some fs ∧
      (∃ i j : Nat, i < j ∧
        fs.names[i]? = some (baseName aEntry.1) ∧ fs.files[i]? = some aEntry.2 ∧
        fs.names[j]? = some (baseName zEntry.1) ∧ fs.files[j]? = some zEntry.2) ∧
      (∀ i j : Nat, fs.names[i]? = some (baseName aEntry.1) →
        fs.names[j]? = some (baseName zEntry.1) → i < j) :=
  ⟨by decide, by decide, by decide,
    newFileSorter_lexicographic testPackage aEntry zEntry (by decide) (by decide) (by decide)
      (by decide) (by decide) (by decide) (by decide)⟩

/-- C10: for every package name, `"doc"` included, the comparison of `Less` is a strict total
order on base names: no name is before itself, the comparison is transitive, and of two
distinct names exactly one is before the other; `Less` applies this comparison to the names
at the two positions. -/
theorem less_strict_total_order (P : Str) :
    (∀ a, LessNames P a a = false) ∧
    (∀ a b c, LessNames P a b = true → LessNames P b c = true → LessNames P a c = true) ∧
    (∀ a b, a ≠ b →
      (LessNames P a b = true ∧ LessNames P b a = false) ∨
      (LessNames P a b = false ∧ LessNames P b a = true)) ∧
    (∀ (fs : fileSorter) (i j : Nat) (ni nj : Str), fs.pkg.Name = P →
      fs.names[i]? = some ni → fs.names[j]? = some nj →
      fs.Less i j = some (LessNames P ni nj)) := by
  refine ⟨lessNames_irrefl P, lessNames_trans P, ?_, ?_⟩
  · intro a b hab
    rcases lessNames_total P a b hab with h | h
    · exact Or.inl ⟨h, lessNames_asymm P a b h⟩
    · exact Or.inr ⟨lessNames_asymm P b a h, h⟩
  · intro fs i j ni nj hP hi hj
    simp [fileSorter.Less, hi, hj, hP]

/-- C10 at the package name `"doc"`: the name `"doc"` is before `"a"`, `"a"` before `"b"`,
and none of the converses holds. -/
theorem less_strict_total_order_witness :
    LessNames doc doc ['a'] = true ∧ LessNames doc ['a'] ['b'] = true ∧
    LessNames doc doc ['b'] = true ∧ LessNames doc ['b'] doc = false ∧
    LessNames doc doc doc = false :=
  ⟨by decide, by decide,
    (less_strict_total_order doc).2.1 doc ['a'] ['b'] (by decide) (by decide),
    by decide, (less_strict_total_order doc).1 doc⟩

/-! ## `stripExt` -/

theorem stripExtLoop_no_dot (s : Str) (n : Nat) (h : '.' ∉ s) : stripExtLoop s n = s := by
  induction n with
  | zero => rfl
  | succ i ih =>
    have hi : s[i]? ≠ some '.' := by
      intro e
      exact h (List.mem_iff_getElem?.mpr ⟨i, e⟩)
    simp [stripExtLoop, hi, ih]

theorem stripExtLoop_last_dot (pre post : Str) (k : Nat) (h : '.' ∉ post) :
    stripExtLoop (pre ++ '.' :: post) (pre.length + 1 + k) = pre := by
  induction k with
  | zero =>
    have h0 : (pre ++ '.' :: post)[pre.length]? = some '.' := by
      rw [List.getElem?_append_right (Nat.le_refl _)]; simp
    simp only [Nat.add_zero, stripExtLoop, h0, if_true]
    simp
  | succ k ih =>
    have hk : (pre ++ '.' :: post)[pre.length + 1 + k]? ≠ some '.' := by
      intro e
      rw [List.getElem?_append_right (by omega)] at e
      have e2 : ('.' :: post)[k + 1]? = some '.' := by
        have : pre.length + 1 + k - pre.length = k + 1 := by omega
        rw [this] at e
        exact e
      simp only [List.getElem?_cons_succ] at e2
      exact h (List.mem_iff_getElem?.mpr ⟨k, e2⟩)
    have hs : pre.length + 1 + (k + 1) = (pre.length + 1 + k) + 1 := by omega
    rw [hs]
    simp only [stripExtLoop, hk, if_false]
    exact ih

/-- C16: `stripExt` leaves a string without `'.'` unchanged and cuts any other string just
before its last `'.'`; so `"foo.bar"` gives `"foo"`, `"foo.bar.baz"` gives `"foo.bar"`,
`"foo"` gives `"foo"` and `".asdf"` gives `""`. -/
theorem stripExt_last_dot :
    (∀ s : Str, '.' ∉ s → stripExt s = s) ∧
    (∀ pre post : Str, '.' ∉ post → stripExt (pre ++ '.' :: post) = pre) ∧
    stripExt "foo.bar".toList = "foo".toList ∧
    stripExt "foo.bar.baz".toList = "foo.bar".toList ∧
    stripExt "foo".toList = "foo".toList ∧
    stripExt ".asdf".toList = [] := by
  refine ⟨fun s h => stripExtLoop_no_dot s _ h, ?_, by decide, by decide, by decide, by decide⟩
  intro pre post h
  have hlen : (pre ++ '.' :: post).length = pre.length + 1 + post.length := by
    simp; omega
  unfold stripExt
  rw [hlen]
  exact stripExtLoop_last_dot pre post post.length h

/-- C16 at the path `"test/a.b.go"`, cut before its last `'.'`. -/
theorem stripExt_last_dot_witness :
    '.' ∉ "go".toList ∧
    stripExt ("test/a.b".toList ++ '.' :: "go".toList) = "test/a.b".toList :=
  ⟨by decide, stripExt_last_dot.2.1 "test/a.b".toList "go".toList (by decide)⟩

/-! ## The composite key -/

/-- C19: `Less(a, b)` holds exactly when the composite key of `a` is strictly smaller than
the composite key of `b`: the tier decides (1 for the package name, 2 for `"doc"` when it is
not the package name, 3 otherwise), names of the same tier 1 or 2 are not smaller than each
other, names of tier 3 are compared byte-wise.  The method `Less` applies this to the names
at the two positions. -/
theorem less_iff_keyLess (P a b : Str) :
    LessNames P a b = keyLess P a b ∧
    ∀ (fs : fileSorter) (i j : Nat), fs.pkg.Name = P → fs.names[i]? = some a →
      fs.names[j]? = some b → fs.Less i j = some (keyLess P a b) := by
  have h : LessNames P a b = keyLess P a b := by
    unfold LessNames keyLess tier
    split_ifs <;> simp_all
  refine ⟨h, ?_⟩
  intro fs i j hP hi hj
  simp [fileSorter.Less, hi, hj, hP, h]

/-- C19 at the package `test` and the names at the positions 2 and 0 of `doc`, `a`,
`test`. -/
theorem less_iff_keyLess_witness :
    (fileSorter.mk testPackage [] ["doc".toList, "a".toList, "test".toList]).Less 2 0
      = some (keyLess "test".toList "test".toList "doc".toList) ∧
    keyLess "test".toList "test".toList "doc".toList = true :=
  ⟨(less_iff_keyLess "test".toList "test".toList "doc".toList).2 _ 2 0 (by decide) (by decide)
    (by decide), by decide⟩

/-! ## White space around the marker -/

theorem isSpace_of_blank (c : Char) (h : c = ' ' ∨ c = '\t') : IsSpace c = true := by
  rcases h with h | h <;> subst h <;> decide

theorem trimLeftSpace_append (ws s : Str) (h : ∀ c ∈ ws, c = ' ' ∨ c = '\t') :
    TrimLeftSpace (ws ++ s) = TrimLeftSpace s := by
  induction ws with
  | nil => rfl
  | cons c ws ih =>
    have hc := isSpace_of_blank c (h c (by simp))
    have hws : ∀ d ∈ ws, d = ' ' ∨ d = '\t' := fun d hd => h d (by simp [hd])
    simp [TrimLeftSpace, hc, ih hws]

/-- Spaces and tabs around the marker are trimmed away. -/
theorem trimSpace_padded_marker (ws1 ws2 : Str) (h1 : ∀ c ∈ ws1, c = ' ' ∨ c = '\t')
    (h2 : ∀ c ∈ ws2, c = ' ' ∨ c = '\t') : TrimSpace (ws1 ++ marker ++ ws2) = marker := by
  have hl : TrimLeftSpace (ws1 ++ marker ++ ws2) = marker ++ ws2 := by
    rw [List.append_assoc, trimLeftSpace_append ws1 _ h1]
    rfl
  have h2r : ∀ c ∈ ws2.reverse, c = ' ' ∨ c = '\t' := fun c hc => h2 c (List.mem_reverse.mp hc)
  unfold TrimSpace TrimRightSpace
  rw [hl, List.reverse_append, trimLeftSpace_append _ _ h2r]
  rfl

theorem no_newline_padded_marker (ws1 ws2 : Str) (h1 : ∀ c ∈ ws1, c = ' ' ∨ c = '\t')
    (h2 : ∀ c ∈ ws2, c = ' ' ∨ c = '\t') : '\n' ∉ ws1 ++ marker ++ ws2 := by
  intro h
  simp only [List.mem_append] at h
  rcases h with (h | h) | h
  · rcases h1 _ h with e | e <;> exact absurd e (by decide)
  · exact absurd h (by decide)
  · rcases h2 _ h with e | e <;> exact absurd e (by decide)

/-- C13: for `ws1` and `ws2` made of spaces and tabs only, `rstComment` on the text
`ws1 + "+rst" + ws2 + "\n" + rest` returns `(rest, true)`: the white space around the marker
on the first line is ignored and the payload is not altered. -/
theorem rstComment_padded_marker (ws1 ws2 rest : Str) (h1 : ∀ c ∈ ws1, c = ' ' ∨ c = '\t')
    (h2 : ∀ c ∈ ws2, c = ' ' ∨ c = '\t') :
    rstComment ⟨ws1 ++ marker ++ ws2 ++ newline ++ rest⟩ = some (rest, true) := by
  have hs : ws1 ++ marker ++ ws2 ++ newline ++ rest = (ws1 ++ marker ++ ws2) ++ '\n' :: rest := by
    simp [newline]
  have hsplit := splitN_two_cut (ws1 ++ marker ++ ws2) rest
    (no_newline_padded_marker ws1 ws2 h1 h2)
  have htrim := trimSpace_padded_marker ws1 ws2 h1 h2
  rw [hs]
  unfold rstComment
  simp only [hsplit, List.getElem?_cons_zero, List.getElem?_cons_succ, htrim, if_true]

/-- C13 at the text `" \t+rst \nfoo\n bar\n"`: the payload keeps its own white space. -/
theorem rstComment_padded_marker_witness :
    (∀ c ∈ [' ', '\t'], c = ' ' ∨ c = '\t') ∧ (∀ c ∈ [' '], c = ' ' ∨ c = '\t') ∧
    rstComment ⟨[' ', '\t'] ++ marker ++ [' '] ++ newline ++ "foo\n bar\n".toList⟩
      = some ("foo\n bar\n".toList, true) :=
  ⟨by decide, by decide,
    rstComment_padded_marker [' ', '\t'] [' '] "foo\n bar\n".toList (by decide) (by decide)⟩

/-! ## Independence of the order of enumeration -/

/-- With pairwise distinct names, an ordered list of entries is strictly increasing. -/
theorem ordered_strict (P : Str) (L : List (Str × File)) (ho : Ordered P (L.map Prod.fst))
    (hn : (L.map Prod.fst).Nodup) :
    L.Pairwise (fun z w => LessNames P z.1 w.1 = true) := by
  have h1 : (L.map Prod.fst).Pairwise (fun a b => LessNames P b a = false ∧ a ≠ b) :=
    List.Pairwise.and ho hn
  have h2 : (L.map Prod.fst).Pairwise (fun a b => LessNames P a b = true) := by
    refine List.Pairwise.imp ?_ h1
    intro a b hab
    rcases lessNames_total P a b hab.2 with h | h
    · exact h
    · rw [hab.1] at h; exact absurd h (by simp)
  exact List.pairwise_map.mp h2

/-- Two ordered lists of entries with pairwise distinct names that hold the same entries are
equal. -/
theorem ordered_unique (P : Str) (L1 L2 : List (Str × File)) (hp : L1.Perm L2)
    (ho1 : Ordered P (L1.map Prod.fst)) (ho2 : Ordered P (L2.map Prod.fst))
    (hn : (L1.map Prod.fst).Nodup) : L1 = L2 := by
  have hn2 : (L2.map Prod.fst).Nodup := (List.Perm.map Prod.fst hp).nodup_iff.mp hn
  have s1 := ordered_strict P L1 ho1 hn
  have s2 := ordered_strict P L2 ho2 hn2
  haveI : IsAntisymm (Str × File) (fun z w => LessNames P z.1 w.1 = true) :=
    ⟨fun a b hab hba => by
      rw [lessNames_asymm P a.1 b.1 hab] at hba
      exact absurd hba (by simp)⟩
  exact List.eq_of_perm_of_sorted hp s1 s2

/-- The sorted entries depend only on the package name and on the set of (name, file)
pairs, when the names are pairwise distinct. -/
theorem sortedEntries_congr (p1 p2 : Package) (hname : p2.Name = p1.Name)
    (hp : (entries p2).Perm (entries p1)) (hn : ((entries p1).map Prod.fst).Nodup) :
    sortedEntries p2 = sortedEntries p1 := by
  have hperm : (sortedEntries p2).Perm (sortedEntries p1) :=
    ((sortedEntries_perm p2).trans hp).trans (sortedEntries_perm p1).symm
  have ho2 := sortedEntries_ordered p2
  rw [hname] at ho2
  have hn2 : ((sortedEntries p2).map Prod.fst).Nodup :=
    (List.Perm.map Prod.fst ((sortedEntries_perm p2).trans hp)).nodup_iff.mpr hn
  exact ordered_unique p1.Name _ _ hperm ho2 (sortedEntries_ordered p1) hn2

/-- The function `parsePackage` runs the two loops over the files of the sorted entries. -/
theorem parsePackage_unfold (pkg : Package) :
    parsePackage pkg = filesLoop ((sortedEntries pkg).map Prod.snd) [] := by
  simp only [parsePackage, newFileSorter_eq, fileSorter.ofPairs]

/-- The result of `parsePackage` depends only on the package name and on the set of (name,
file) pairs, when the names are pairwise distinct. -/
theorem parsePackage_congr (name : Str) (files1 files2 : List (Str × File))
    (hp : (files2.map (fun e => (baseName e.1, e.2))).Perm
      (files1.map (fun e => (baseName e.1, e.2))))
    (hn : (files1.map (fun e => baseName e.1)).Nodup) :
    parsePackage ⟨name, files2⟩ = parsePackage ⟨name, files1⟩ := by
  have hn1 : ((entries ⟨name, files1⟩).map Prod.fst).Nodup := by
    simpa [entries, Function.comp_def] using hn
  rw [parsePackage_unfold, parsePackage_unfold,
    sortedEntries_congr ⟨name, files1⟩ ⟨name, files2⟩ rfl hp hn1]

/-- C11: for a package whose member files have pairwise distinct base names, `parsePackage`
gives the same result for every order of enumeration of the map of files, and more generally
for every collection of files with the same base names and the same comment blocks; on texts
that the normalizer returns this common result is a sequence of payloads. -/
theorem parsePackage_enumeration (name : Str) (files1 : List (Str × File))
    (hn : (files1.map (fun e => baseName e.1)).Nodup) :
    (∀ files2 : List (Str × File), files2.Perm files1 →
      parsePackage ⟨name, files2⟩ = parsePackage ⟨name, files1⟩) ∧
    (∀ files2 : List (Str × File),
      (files2.map (fun e => (baseName e.1, e.2))).Perm
        (files1.map (fun e => (baseName e.1, e.2))) →
      parsePackage ⟨name, files2⟩ = parsePackage ⟨name, files1⟩) ∧
    ((∀ e ∈ files1, ∀ c ∈ e.2.Comments, Normalized c.Text) →
      ∃ comments, parsePackage ⟨name, files1⟩ = some comments ∧
        ∀ files2 : List (Str × File), files2.Perm files1 →
          parsePackage ⟨name, files2⟩ = some comments) := by
  refine ⟨?_, ?_, ?_⟩
  · intro files2 hp
    exact parsePackage_congr name files1 files2 (List.Perm.map _ hp) hn
  · intro files2 hp
    exact parsePackage_congr name files1 files2 hp hn
  · intro hnorm
    refine ⟨_, parsePackage_eq ⟨name, files1⟩ hnorm, ?_⟩
    intro files2 hp
    rw [parsePackage_congr name files1 files2 (List.Perm.map _ hp) hn]
    exact parsePackage_eq ⟨name, files1⟩ hnorm

/-- C11 at the sample package `test` and the reverse order of enumeration of its files. -/
theorem parsePackage_enumeration_witness :
    (testPackage.Files.map (fun e => baseName e.1)).Nodup ∧
    testPackage.Files.reverse.Perm testPackage.Files ∧
    parsePackage ⟨testPackage.Name, testPackage.Files.reverse⟩
      = parsePackage ⟨testPackage.Name, testPackage.Files⟩ :=
  ⟨by decide, List.reverse_perm _,
    (parsePackage_enumeration testPackage.Name testPackage.Files (by decide)).1 _
      (List.reverse_perm _)⟩

/-- C12: for the package `test` with the files `test.go`, `doc.go`, `a.go` and `z.go`, each
with one marked comment block, `parsePackage` returns the four payloads in the order test,
doc, a, z, whatever the order in which the four files are enumerated. -/
theorem parsePackage_test_dir (files : List (Str × File)) (h : files.Perm testDirFiles) :
    parsePackage ⟨"test".toList, files⟩ = some testDirExpected := by
  rw [parsePackage_congr "test".toList testDirFiles files (List.Perm.map _ h) (by decide)]
  decide

/-- C12 at the order of enumeration z, a, doc, test. -/
theorem parsePackage_test_dir_witness :
    [zEntry, aGoEntry, docEntry, testEntry].Perm testDirFiles ∧
    parsePackage ⟨"test".toList, [zEntry, aGoEntry, docEntry, testEntry]⟩
      = some testDirExpected :=
  ⟨by decide, parsePackage_test_dir _ (by decide)⟩

/-! ## The pairing of names and files -/

/-- The elements of a slice after `l[i], l[j] = l[j], l[i]`. -/
theorem swapAt_getElem? {α : Type} (l l1 : List α) (i j : Nat) (h : swapAt l i j = some l1) :
    l1.length = l.length ∧
      ∀ k : Nat, l1[k]? = if k = j then l[i]? else if k = i then l[j]? else l[k]? := by
  unfold swapAt at h
  split at h
  · rename_i a b ha hb
    have hl : l1 = (l.set i b).set j a := (Option.some.inj h).symm
    have hj : j < l.length := (List.getElem?_eq_some.mp hb).1
    subst hl
    refine ⟨by simp, ?_⟩
    intro k
    rw [List.getElem?_set, List.getElem?_set]
    by_cases hkj : k = j
    · subst hkj
      simp [hj, ha]
    · have hjk : ¬ j = k := fun e => hkj e.symm
      simp only [hjk, hkj, if_false]
      by_cases hki : k = i
      · subst hki
        have hi : k < l.length := (List.getElem?_eq_some.mp ha).1
        simp [hi, hb]
      · have hik : ¬ i = k := fun e => hki e.symm
        simp [hik, hki]
  · exact absurd h (by simp)

/-- A swap at two positions of the slice returns. -/
theorem swapAt_returns {α : Type} (l : List α) (i j : Nat) (hi : i < l.length)
    (hj : j < l.length) : ∃ l1, swapAt l i j = some l1 := by
  unfold swapAt
  rw [List.getElem?_eq_getElem hi, List.getElem?_eq_getElem hj]
  exact ⟨_, rfl⟩

/-- The method `Swap` keeps the names and the files paired. -/
theorem swap_pairedBy (R : Str → File → Prop) (fs fs1 : fileSorter) (i j : Nat)
    (hp : PairedBy R fs) (hs : fs.Swap i j = some fs1) :
    fs1.pkg = fs.pkg ∧ PairedBy R fs1 := by
  unfold fileSorter.Swap at hs
  cases hf : swapAt fs.files i j with
  | none => rw [hf] at hs; exact absurd hs (by simp)
  | some files =>
    cases hn : swapAt fs.names i j with
    | none => rw [hf, hn] at hs; exact absurd hs (by simp)
    | some names =>
      rw [hf, hn] at hs
      have e : fs1 = { fs with files := files, names := names } := (Option.some.inj hs).symm
      subst e
      obtain ⟨hfl, hfk⟩ := swapAt_getElem? fs.files files i j hf
      obtain ⟨hnl, hnk⟩ := swapAt_getElem? fs.names names i j hn
      refine ⟨rfl, ?_, ?_⟩
      · show names.length = files.length
        rw [hfl, hnl]; exact hp.1
      · intro k n f hkn hkf
        have hkn2 : names[k]? = some n := hkn
        have hkf2 : files[k]? = some f := hkf
        rw [hnk] at hkn2
        rw [hfk] at hkf2
        by_cases hkj : k = j
        · simp only [hkj, if_true] at hkn2 hkf2
          exact hp.2 i n f hkn2 hkf2
        · simp only [hkj, if_false] at hkn2 hkf2
          by_cases hki : k = i
          · simp only [hki, if_true] at hkn2 hkf2
            exact hp.2 j n f hkn2 hkf2
          · simp only [hki, if_false] at hkn2 hkf2
            exact hp.2 k n f hkn2 hkf2

/-- In the result of `newFileSorter` every name is the base name of the file at the same
position. -/
theorem sortedEntries_paired (pkg : Package) :
    PairedBy (IsBaseNameOf pkg) (fileSorter.ofPairs pkg (sortedEntries pkg)) := by
  refine ⟨by simp [fileSorter.ofPairs], ?_⟩
  intro i n f hn hf
  simp only [fileSorter.ofPairs, List.getElem?_map] at hn hf
  cases hz : (sortedEntries pkg)[i]? with
  | none => rw [hz] at hn; exact absurd hn (by simp)
  | some z =>
    rw [hz] at hn hf
    have hzn : z.1 = n := Option.some.inj hn
    have hzf : z.2 = f := Option.some.inj hf
    obtain ⟨e, he, hze⟩ := mem_sortedEntries pkg z (List.mem_iff_getElem?.mpr ⟨i, hz⟩)
    refine ⟨e.1, ?_, ?_⟩
    · have : e.2 = f := by rw [← hzf, hze]
      rw [← this]; exact he
    · rw [← hzn, hze]

/-- C20: the method `Swap` keeps the file list and the name list paired, whatever the
relation `names[i]` has to `files[i]`, and it returns at two positions below `Len`; so in
the result of `newFileSorter` every `names[i]` is the base name of `files[i]`, the names are
in the order of `Less`, and `parsePackage` visits the files of this result in this order. -/
theorem fileSorter_pairing (pkg : Package) :
    (∀ (R : Str → File → Prop) (fs fs1 : fileSorter) (i j : Nat),
      PairedBy R fs → fs.Swap i j = some fs1 → fs1.pkg = fs.pkg ∧ PairedBy R fs1) ∧
    (∀ (R : Str → File → Prop) (fs : fileSorter) (i j : Nat),
      PairedBy R fs → i < fs.Len → j < fs.Len → ∃ fs1, fs.Swap i j = some fs1) ∧
    ∃ fs, newFileSorter pkg = some fs ∧ PairedBy (IsBaseNameOf pkg) fs ∧
      Ordered pkg.Name fs.names ∧ parsePackage pkg = filesLoop fs.files [] := by
  refine ⟨swap_pairedBy, ?_, ?_⟩
  · intro R fs i j hp hi hj
    have hi2 : i < fs.names.length := by rw [hp.1]; exact hi
    have hj2 : j < fs.names.length := by rw [hp.1]; exact hj
    obtain ⟨files, hf⟩ := swapAt_returns fs.files i j hi hj
    obtain ⟨names, hn⟩ := swapAt_returns fs.names i j hi2 hj2
    exact ⟨{ fs with files := files, names := names }, by simp only [fileSorter.Swap, hf, hn]⟩
  · exact ⟨_, newFileSorter_eq pkg, sortedEntries_paired pkg, sortedEntries_ordered pkg,
      parsePackage_unfold pkg⟩

/-- C20 at the sample package `test`: the result of `newFileSorter` is paired, and it is
still paired after the swap of its positions 0 and 3. -/
theorem fileSorter_pairing_witness :
    ∃ fs fs1, newFileSorter testPackage = some fs ∧ PairedBy (IsBaseNameOf testPackage) fs ∧
      fs.Swap 0 3 = some fs1 ∧ PairedBy (IsBaseNameOf testPackage) fs1 := by
  obtain ⟨hswap, hret, fs, hfs, hp, _, _⟩ := fileSorter_pairing testPackage
  have hlen : fs.Len = 4 := by
    have e : fs = fileSorter.ofPairs testPackage (sortedEntries testPackage) :=
      Option.some.inj (hfs.symm.trans (newFileSorter_eq testPackage))
    rw [e]
    decide
  obtain ⟨fs1, h1⟩ := hret _ fs 0 3 hp (by omega) (by omega)
  exact ⟨fs, fs1, hfs, hp, h1, (hswap _ fs fs1 0 3 hp h1).2⟩

/-! ## The driver -/

/-- The calls of the writing loop append to the open file each payload and one newline. -/
theorem run_writeLoop (comments : List Str) (d : Disk) (f t : Str) (hf : d.outf = some f)
    (ht : d.content f = some t) :
    (d.run (writeLoop comments)).outf = some f ∧
      (d.run (writeLoop comments)).content f = some (t ++ rstContent comments) := by
  induction comments generalizing d t with
  | nil => simp [writeLoop, Disk.run, rstContent, hf, ht]
  | cons c cs ih =>
    have h1 : ((d.step (OsCall.WriteString c)).step (OsCall.WriteString newline)).outf
        = some f := by
      simp [Disk.step, hf]
    have h2 : ((d.step (OsCall.WriteString c)).step (OsCall.WriteString newline)).content f
        = some (t ++ c ++ newline) := by
      simp [Disk.step, hf, ht]
    have := ih _ (t ++ c ++ newline) h1 h2
    simp only [Disk.run, writeLoop, List.foldl_cons] at this ⊢
    simpa [rstContent, List.flatMap_cons] using this

/-- The calls for one output file leave it with the content of the specification. -/
theorem run_create_write_close (comments : List Str) (d : Disk) (filename : Str) :
    (d.run (OsCall.Create filename :: (writeLoop comments ++ [OsCall.Close]))).content filename
      = some (rstContent comments) := by
  have h := run_writeLoop comments (d.step (OsCall.Create filename)) filename []
    (by simp [Disk.step]) (by simp [Disk.step])
  simp only [Disk.run, List.foldl_cons, List.foldl_append, List.foldl_nil] at h ⊢
  simpa [Disk.step] using h.2

/-- C14: for a package whose payload sequence is not empty, once `os.Create` has returned
the file, the driver leaves in the file `<package name>.rst` of the output directory the
payloads in the order of `parsePackage`, each followed by exactly one newline, and nothing
else. -/
theorem main_file_content (createOk : Str → Bool) (outDir : Str) (pkg : Package)
    (comments : List Str) (d : Disk) (hparse : parsePackage pkg = some comments)
    (hne : comments ≠ [])
    (hok : createOk (Join [outDir, pkg.Name ++ ['.', 'r', 's', 't']]) = true) :
    ∃ calls, mainBody createOk outDir pkg = some calls ∧
      (d.run calls).content (Join [outDir, pkg.Name ++ ['.', 'r', 's', 't']])
        = some (rstContent comments) := by
  have hlen : 0 < comments.length := List.length_pos.mpr hne
  have hbody : mainBody createOk outDir pkg
      = some (OsCall.Create (Join [outDir, pkg.Name ++ ['.', 'r', 's', 't']]) ::
          (writeLoop comments ++ [OsCall.Close])) := by
    simp only [mainBody, hparse, hlen, hok, if_true]
  exact ⟨_, hbody, run_create_write_close comments d _⟩

/-- C14 at the sample package `test` and the output directory `out`. -/
theorem main_file_content_witness :
    ∃ calls, mainBody (fun _ => true) "out".toList testPackage = some calls ∧
      (Disk.empty.run calls).content "out/test.rst".toList
        = some ("A comment inside test.go\n\nMore restructured text, in doc.go\n\n".toList ++
            "A comment in a.go\n\nAn interesting\nmulti-line\ncomment inside\nz.go\n\n".toList) :=
  main_file_content (fun _ => true) "out".toList testPackage
    [ "A comment inside test.go\n".toList, "More restructured text, in doc.go\n".toList,
      "A comment in a.go\n".toList,
      "An interesting\nmulti-line\ncomment inside\nz.go\n".toList ]
    Disk.empty (by decide) (by decide) rfl

/-- A block whose first line is not the marker gives no payload. -/
theorem payloadOf_other_first_line (c : CommentGroup)
    (h : TrimSpace (firstLine c.Text) ≠ marker) :
    rstComment c = some ([], false) ∧ payloadOf c = none := by
  have hr : rstComment c = some ([], false) := by
    simp [rstComment, splitN_two_head c.Text, h]
  exact ⟨hr, by simp [payloadOf, hr]⟩

/-- Without any marked block the extracted sequence is empty. -/
theorem extractSpec_nil (files : List File)
    (h : ∀ f ∈ files, ∀ c ∈ f.Comments, TrimSpace (firstLine c.Text) ≠ marker) :
    extractSpec files = [] := by
  unfold extractSpec
  rw [List.flatMap_eq_nil_iff]
  intro f hf
  rw [List.filterMap_eq_nil_iff]
  intro c hc
  exact (payloadOf_other_first_line c (h f hf c hc)).2

/-- C15: when no comment block of the package has the marker as first line, `parsePackage`
returns the empty sequence and the driver makes no call, so no file is created; and whenever
`parsePackage` returns a sequence that is not empty, the first call of the driver is
`os.Create` of the output file. -/
theorem main_creates_iff_payload (createOk : Str → Bool) (outDir : Str) (pkg : Package) :
    ((∀ e ∈ pkg.Files, ∀ c ∈ e.2.Comments, TrimSpace (firstLine c.Text) ≠ marker) →
      parsePackage pkg = some [] ∧ mainBody createOk outDir pkg = some []) ∧
    (∀ comments, parsePackage pkg = some comments → comments ≠ [] →
      ∃ calls, mainBody createOk outDir pkg
        = some (OsCall.Create (Join [outDir, pkg.Name ++ ['.', 'r', 's', 't']]) :: calls)) := by
  constructor
  · intro h
    have hfiles : ∀ f ∈ (sortedEntries pkg).map Prod.snd, ∀ c ∈ f.Comments,
        TrimSpace (firstLine c.Text) ≠ marker := by
      intro f hf c hc
      obtain ⟨e, he, hef⟩ := mem_sortedEntries_files pkg f hf
      exact h e he c (by rw [hef]; exact hc)
    have hret : ∀ f ∈ (sortedEntries pkg).map Prod.snd, ∀ c ∈ f.Comments,
        ∃ r, rstComment c = some r :=
      fun f hf c hc => ⟨_, (payloadOf_other_first_line c (hfiles f hf c hc)).1⟩
    have hparse : parsePackage pkg = some [] := by
      rw [parsePackage_unfold, filesLoop_eq _ [] hret, extractSpec_nil _ hfiles]
      rfl
    exact ⟨hparse, by simp [mainBody, hparse]⟩
  · intro comments hparse hne
    have hlen : 0 < comments.length := List.length_pos.mpr hne
    simp only [mainBody, hparse, hlen, if_true]
    split_ifs
    · exact ⟨_, rfl⟩
    · exact ⟨_, rfl⟩

/-- C15 at a package without marked block, and at the sample package `test`. -/
theorem main_creates_iff_payload_witness :
    (parsePackage ⟨"p".toList, [("p.go".toList, ⟨[⟨"Package p.\n".toList⟩]⟩)]⟩ = some [] ∧
      mainBody (fun _ => true) "out".toList
        ⟨"p".toList, [("p.go".toList, ⟨[⟨"Package p.\n".toList⟩]⟩)]⟩ = some []) ∧
    ∃ calls, mainBody (fun _ => true) "out".toList testPackage
      = some (OsCall.Create "out/test.rst".toList :: calls) :=
  ⟨(main_creates_iff_payload (fun _ => true) "out".toList
      ⟨"p".toList, [("p.go".toList, ⟨[⟨"Package p.\n".toList⟩]⟩)]⟩).1 (by decide),
    (main_creates_iff_payload (fun _ => true) "out".toList testPackage).2
      [ "A comment inside test.go\n".toList, "More restructured text, in doc.go\n".toList,
        "A comment in a.go\n".toList,
        "An interesting\nmulti-line\ncomment inside\nz.go\n".toList ]
      (by decide) (by decide)⟩

/-! ## Base names -/

theorem lastSlashLoop_no_slash (s : Str) (n : Nat) (h : '/' ∉ s) : lastSlashLoop s n = none := by
  induction n with
  | zero => rfl
  | succ i ih =>
    have hi : s[i]? ≠ some '/' := fun e => h (List.mem_iff_getElem?.mpr ⟨i, e⟩)
    simp [lastSlashLoop, hi, ih]

theorem lastSlashLoop_last (pre post : Str) (k : Nat) (h : '/' ∉ post) :
    lastSlashLoop (pre ++ '/' :: post) (pre.length + 1 + k) = some pre.length := by
  induction k with
  | zero =>
    have h0 : (pre ++ '/' :: post)[pre.length]? = some '/' := by
      rw [List.getElem?_append_right (Nat.le_refl _)]; simp
    simp only [Nat.add_zero, lastSlashLoop, h0, if_true]
  | succ k ih =>
    have hk : (pre ++ '/' :: post)[pre.length + 1 + k]? ≠ some '/' := by
      intro e
      rw [List.getElem?_append_right (by omega)] at e
      have e2 : ('/' :: post)[k + 1]? = some '/' := by
        have : pre.length + 1 + k - pre.length = k + 1 := by omega
        rw [this] at e
        exact e
      simp only [List.getElem?_cons_succ] at e2
      exact h (List.mem_iff_getElem?.mpr ⟨k, e2⟩)
    have hs : pre.length + 1 + (k + 1) = (pre.length + 1 + k) + 1 := by omega
    rw [hs]
    simp only [lastSlashLoop, hk, if_false]
    exact ih

/-- The last component of a name without slash, alone or after a directory. -/
theorem lastComponent_name (name : Str) (h : '/' ∉ name) :
    lastComponent name = name ∧ ∀ dir : Str, lastComponent (dir ++ '/' :: name) = name := by
  constructor
  · simp [lastComponent, lastSlash, lastSlashLoop_no_slash name _ h]
  · intro dir
    have hlen : (dir ++ '/' :: name).length = dir.length + 1 + name.length := by
      simp; omega
    have := lastSlashLoop_last dir name name.length h
    simp [lastComponent, lastSlash, hlen, this]

/-- A name that does not start with a slash keeps its trailing part when slashes are dropped
from its end. -/
theorem dropSlashes_reverse (s : Str) (c : Char) (hc : c ≠ '/') :
    (dropSlashes (s ++ [c]).reverse).reverse = s ++ [c] := by
  simp [dropSlashes, hc]

/-- Go's `path.Base` on a non-empty name without slash, alone or after a directory. -/
theorem base_name (name : Str) (h : '/' ∉ name) (hne : name ≠ []) :
    Base name = name ∧ ∀ dir : Str, Base (dir ++ '/' :: name) = name := by
  obtain ⟨s, c, hsc⟩ : ∃ s c, name = s ++ [c] :=
    ⟨name.dropLast, name.getLast hne, (List.dropLast_append_getLast hne).symm⟩
  have hc : c ≠ '/' := fun e => h (by rw [hsc, e]; simp)
  have hcomp := lastComponent_name name h
  constructor
  · have hd : (dropSlashes name.reverse).reverse = name := by
      rw [hsc]; exact dropSlashes_reverse s c hc
    have hl := hcomp.1
    unfold lastComponent at hl
    unfold Base
    simp only [hne, if_false, hd]
    rw [hl]
    simp [hne]
  · intro dir
    have hd : (dropSlashes (dir ++ '/' :: name).reverse).reverse = dir ++ '/' :: name := by
      have e : dir ++ '/' :: name = (dir ++ '/' :: s) ++ [c] := by rw [hsc]; simp
      rw [e]; exact dropSlashes_reverse _ c hc
    have hl := hcomp.2 dir
    unfold lastComponent at hl
    have hne2 : dir ++ '/' :: name ≠ [] := by simp
    unfold Base
    simp only [hne2, if_false, hd]
    rw [hl]
    simp [hne]

/-- For a file whose name has a non-empty stem before its last `'.'`, the base name that
`newFileSorter` computes is the stem, which is the name of the file without extension. -/
theorem baseName_stem (stem ext : Str) (hs : '/' ∉ stem) (hne : stem ≠ []) (he : '.' ∉ ext)
    (hes : '/' ∉ ext) :
    (baseName (stem ++ '.' :: ext) = stem ∧ fileBaseName (stem ++ '.' :: ext) = stem) ∧
    ∀ dir : Str, baseName (dir ++ '/' :: (stem ++ '.' :: ext)) = stem ∧
      fileBaseName (dir ++ '/' :: (stem ++ '.' :: ext)) = stem := by
  have hname : '/' ∉ stem ++ '.' :: ext := by
    intro h
    simp only [List.mem_append, List.mem_cons] at h
    rcases h with h | h | h
    · exact hs h
    · exact absurd h (by decide)
    · exact hes h
  have hstrip : ∀ pre : Str, stripExt (pre ++ '.' :: ext) = pre := by
    intro pre
    have hlen : (pre ++ '.' :: ext).length = pre.length + 1 + ext.length := by
      simp; omega
    unfold stripExt
    rw [hlen]
    exact stripExtLoop_last_dot pre ext ext.length he
  have hb := base_name stem hs hne
  have hl := lastComponent_name (stem ++ '.' :: ext) hname
  refine ⟨⟨?_, ?_⟩, fun dir => ⟨?_, ?_⟩⟩
  · unfold baseName; rw [hstrip]; exact hb.1
  · unfold fileBaseName; rw [hl.1]; exact hstrip stem
  · have e : dir ++ '/' :: (stem ++ '.' :: ext) = (dir ++ '/' :: stem) ++ '.' :: ext := by simp
    unfold baseName; rw [e, hstrip]; exact hb.2 dir
  · unfold fileBaseName; rw [hl.2 dir]; exact hstrip stem

/-- C17 fails on the code: for the file `.go` of the directory `src`, of path `"src/.go"`,
`newFileSorter` computes the base name `"src"`, the name of the directory, where the name
of the file without its extension is the empty string; for the path `".go"` it computes
`"."`. -/
theorem baseName_dot_go :
    stripExt "src/.go".toList = "src/".toList ∧
    baseName "src/.go".toList = "src".toList ∧
    fileBaseName "src/.go".toList = [] ∧
    baseName "src/.go".toList ≠ fileBaseName "src/.go".toList ∧
    baseName ".go".toList = ['.'] ∧ fileBaseName ".go".toList = [] ∧
    (∃ fs, newFileSorter ⟨"src".toList, [("src/a.go".toList, ⟨[]⟩), ("src/.go".toList, ⟨[]⟩)]⟩
      = some fs ∧ fs.names = ["src".toList, "a".toList]) := by
  refine ⟨by decide, by decide, by decide, by decide, by decide, by decide, _, rfl, ?_⟩
  decide

/-! ## The text of a comment group -/

theorem linesOf_ne_nil (s : Str) : linesOf s ≠ [] := by
  induction s with
  | nil => simp [linesOf]
  | cons c cs ih =>
    unfold linesOf
    split_ifs
    · simp
    · split <;> simp

/-- The lines of a text without newline: the text itself. -/
theorem linesOf_whole (s : Str) (h : '\n' ∉ s) : linesOf s = [s] := by
  induction s with
  | nil => rfl
  | cons c cs ih =>
    have hc : c ≠ '\n' := fun e => h (by simp [e])
    have hcs : '\n' ∉ cs := fun e => h (by simp [e])
    simp [linesOf, hc, ih hcs]

/-- The lines of a text with a newline: its first line, then the lines of the rest. -/
theorem linesOf_cut (head rest : Str) (h : '\n' ∉ head) :
    linesOf (head ++ '\n' :: rest) = head :: linesOf rest := by
  induction head with
  | nil => simp [linesOf]
  | cons c cs ih =>
    have hc : c ≠ '\n' := fun e => h (by simp [e])
    have hcs : '\n' ∉ cs := fun e => h (by simp [e])
    simp [linesOf, hc, ih hcs]

theorem linesOf_no_newline (s : Str) : ∀ l ∈ linesOf s, '\n' ∉ l := by
  induction s with
  | nil => simp [linesOf]
  | cons c cs ih =>
    intro l hl
    unfold linesOf at hl
    split_ifs at hl with hc
    · rcases List.mem_cons.mp hl with e | e
      · rw [e]; simp
      · exact ih l e
    · split at hl
      · rename_i hnil
        exact absurd hnil (linesOf_ne_nil cs)
      · rename_i l1 ls hcons
        rcases List.mem_cons.mp hl with e | e
        · rw [e]
          intro hm
          rcases List.mem_cons.mp hm with e2 | e2
          · exact hc e2.symm
          · exact ih l1 (by rw [hcons]; simp) e2
        · exact ih l (by rw [hcons]; simp [e])

theorem genSplitLoop_linesOf (k : Nat) (s : Str) (h : s.length ≤ k) :
    genSplitLoop newline k s = linesOf s := by
  induction k generalizing s with
  | zero =>
    have : s = [] := List.length_eq_zero.mp (Nat.le_zero.mp h)
    subst this
    rfl
  | succ k ih =>
    rcases firstLine_cases s with ⟨h1, _⟩ | ⟨rest, hcut⟩
    · simp [genSplitLoop, Index, indexFrom_newline_none s 0 h1, linesOf_whole s h1]
    · have hfl := firstLine_no_newline s
      have hi := indexFrom_newline_some (firstLine s) rest 0 hfl
      have hlen : rest.length ≤ k := by
        have : s.length = (firstLine s).length + 1 + rest.length := by
          conv_lhs => rw [hcut]
          simp; omega
        omega
      rw [hcut, linesOf_cut _ _ hfl]
      have ihr := ih rest hlen
      simp only [genSplitLoop, Index, hi]
      simp only [newline] at ihr ⊢
      simp [ihr]

/-- Go's `strings.Split(s, "\n")` gives the lines of `s`. -/
theorem split_linesOf (s : Str) : Split s newline = linesOf s :=
  genSplitLoop_linesOf s.length s (Nat.le_refl _)
theorem compactLines_append (ls kept : List Str) : ∃ more, compactLines ls kept = kept ++ more := by
  induction ls generalizing kept with
  | nil => exact ⟨[], by simp [compactLines]⟩
  | cons line ls ih =>
    unfold compactLines
    split_ifs
    · obtain ⟨more, hm⟩ := ih (kept ++ [line])
      exact ⟨line :: more, by rw [hm]; simp⟩
    · exact ih kept

/-- The lines kept start with the first line that is not empty. -/
theorem compactLines_head (ls : List Str) :
    (ls.find? (fun l => decide (l ≠ [])) = none → compactLines ls [] = []) ∧
    (∀ l, ls.find? (fun l => decide (l ≠ [])) = some l →
      ∃ more, compactLines ls [] = l :: more) := by
  induction ls with
  | nil => simp [compactLines]
  | cons line ls ih =>
    by_cases hl : line = []
    · subst hl
      simpa [compactLines] using ih
    · constructor
      · intro h
        simp [List.find?_cons, hl] at h
      · intro l h
        have e : line = l := by simpa [List.find?_cons, hl] using h
        subst e
        obtain ⟨more, hm⟩ := compactLines_append ls [line]
        exact ⟨more, by simp [compactLines, hl, hm]⟩

theorem joinLines_cons (l : Str) (ls : List Str) (h : ls ≠ []) :
    joinLines (l :: ls) = l ++ '\n' :: joinLines ls := by
  cases ls with
  | nil => exact absurd rfl h
  | cons x xs => rfl

/-- The text made of kept lines that start with a line that is not empty starts with this
line and a newline. -/
theorem finishLines_cons (l : Str) (more : List Str) (hl : l ≠ []) :
    ∃ rest, finishLines (l :: more) = l ++ '\n' :: rest := by
  unfold finishLines
  split_ifs with h
  · rw [List.cons_append]
    exact ⟨_, joinLines_cons l (more ++ [[]]) (by simp)⟩
  · have hmore : more ≠ [] := by
      intro e
      subst e
      apply h
      exact ⟨by simp, by simpa using hl⟩
    exact ⟨_, joinLines_cons l more hmore⟩

/-- The function `rstComment` on a text with a newline: the first line decides. -/
theorem rstComment_cut (l rest : Str) (h : '\n' ∉ l) :
    rstComment ⟨l ++ '\n' :: rest⟩
      = if TrimSpace l = marker then some (rest, true) else some ([], false) := by
  unfold rstComment
  simp only [splitN_two_cut l rest h, List.getElem?_cons_zero, List.getElem?_cons_succ]

/-- On the text that `Text` makes of a list of lines, `rstComment` returns, and it matches
exactly when the first line that is not empty is, trimmed, the marker. -/
theorem rstComment_finishLines (L : List Str) (hnl : ∀ l ∈ L, '\n' ∉ l) :
    (∃ r, rstComment ⟨finishLines (compactLines L [])⟩ = some r) ∧
    ((∃ p, rstComment ⟨finishLines (compactLines L [])⟩ = some (p, true)) ↔
      ∃ l, L.find? (fun l => decide (l ≠ [])) = some l ∧ TrimSpace l = marker) := by
  cases hf : L.find? (fun l => decide (l ≠ [])) with
  | none =>
    have hc := (compactLines_head L).1 hf
    rw [hc]
    have h0 : rstComment ⟨finishLines []⟩ = some ([], false) := by decide
    rw [h0]
    simp
  | some l =>
    obtain ⟨more, hc⟩ := (compactLines_head L).2 l hf
    have hl : l ≠ [] := by simpa using List.find?_some hf
    have hmem : l ∈ L := List.mem_of_find?_eq_some hf
    obtain ⟨rest, hfin⟩ := finishLines_cons l more hl
    rw [hc, hfin, rstComment_cut l rest (hnl l hmem)]
    by_cases hm : TrimSpace l = marker
    · simp [hm]
    · simp [hm]
theorem isSpace_of_isWhitespace (c : Char) (h : isWhitespace c = true) : IsSpace c = true := by
  simp only [isWhitespace, Bool.or_eq_true, decide_eq_true_eq] at h
  rcases h with ((h | h) | h) | h <;> subst h <;> decide

theorem trimLeftSpace_spaces (ws s : Str) (h : ∀ c ∈ ws, IsSpace c = true) :
    TrimLeftSpace (ws ++ s) = TrimLeftSpace s := by
  induction ws with
  | nil => rfl
  | cons c ws ih =>
    have hc := h c (by simp)
    have hws : ∀ d ∈ ws, IsSpace d = true := fun d hd => h d (by simp [hd])
    simp [TrimLeftSpace, hc, ih hws]

theorem trimLeftSpace_append_spaces (m w : Str) (h : ∀ c ∈ w, IsSpace c = true) :
    TrimLeftSpace (m ++ w) = TrimLeftSpace m ++ w ∨
      (TrimLeftSpace m = [] ∧ TrimLeftSpace (m ++ w) = []) := by
  induction m with
  | nil =>
    right
    have := trimLeftSpace_spaces w [] h
    simp only [List.append_nil] at this
    exact ⟨rfl, by simpa [TrimLeftSpace] using this⟩
  | cons c m ih =>
    by_cases hc : IsSpace c = true
    · simpa [TrimLeftSpace, hc] using ih
    · left
      simp [TrimLeftSpace, hc]

theorem trimRightSpace_append_spaces (x w : Str) (h : ∀ c ∈ w, IsSpace c = true) :
    TrimRightSpace (x ++ w) = TrimRightSpace x := by
  have hr : ∀ c ∈ w.reverse, IsSpace c = true := fun c hc => h c (List.mem_reverse.mp hc)
  unfold TrimRightSpace
  rw [List.reverse_append, trimLeftSpace_spaces _ _ hr]

/-- White space at the end of a line does not change its trimmed content. -/
theorem trimSpace_append_spaces (m w : Str) (h : ∀ c ∈ w, IsSpace c = true) :
    TrimSpace (m ++ w) = TrimSpace m := by
  unfold TrimSpace
  rcases trimLeftSpace_append_spaces m w h with h1 | ⟨h1, h2⟩
  · rw [h1, trimRightSpace_append_spaces _ _ h]
  · rw [h1, h2]

theorem dropWhitespace_split (x : Str) :
    ∃ w, x = w ++ dropWhitespace x ∧ ∀ c ∈ w, isWhitespace c = true := by
  induction x with
  | nil => exact ⟨[], rfl, by simp⟩
  | cons c cs ih =>
    by_cases hc : isWhitespace c = true
    · obtain ⟨w, hw, hall⟩ := ih
      refine ⟨c :: w, ?_, ?_⟩
      · simp only [dropWhitespace, hc, if_true, List.cons_append]
        exact congrArg _ hw
      · intro d hd
        rcases List.mem_cons.mp hd with e | e
        · rw [e]; exact hc
        · exact hall d e
    · exact ⟨[], by simp [dropWhitespace, hc], by simp⟩

/-- A line is its content without trailing white space, followed by white space. -/
theorem stripTrailingWhitespace_split (l : Str) :
    ∃ w, l = stripTrailingWhitespace l ++ w ∧ ∀ c ∈ w, isWhitespace c = true := by
  obtain ⟨w, hw, hall⟩ := dropWhitespace_split l.reverse
  refine ⟨w.reverse, ?_, fun c hc => hall c (List.mem_reverse.mp hc)⟩
  have := congrArg List.reverse hw
  simpa [stripTrailingWhitespace] using this

theorem trimSpace_stripTrailingWhitespace (l : Str) :
    TrimSpace (stripTrailingWhitespace l) = TrimSpace l := by
  obtain ⟨w, hw, hall⟩ := stripTrailingWhitespace_split l
  have h := trimSpace_append_spaces (stripTrailingWhitespace l) w
    (fun c hc => isSpace_of_isWhitespace c (hall c hc))
  rw [← hw] at h
  exact h.symm

theorem dropWhitespace_eq_nil (x : Str) : dropWhitespace x = [] ↔ x.all isWhitespace = true := by
  induction x with
  | nil => simp [dropWhitespace]
  | cons c cs ih =>
    by_cases hc : isWhitespace c = true
    · simpa [dropWhitespace, hc] using ih
    · simp [dropWhitespace, hc]

/-- A line is empty once its trailing white space is removed exactly when it is blank. -/
theorem stripTrailingWhitespace_eq_nil (l : Str) :
    stripTrailingWhitespace l = [] ↔ isBlankLine l = true := by
  unfold stripTrailingWhitespace isBlankLine
  rw [List.reverse_eq_nil_iff, dropWhitespace_eq_nil]
  simp

theorem stripTrailingWhitespace_no_newline (l : Str) (h : '\n' ∉ l) :
    '\n' ∉ stripTrailingWhitespace l := by
  obtain ⟨w, hw, _⟩ := stripTrailingWhitespace_split l
  intro hm
  apply h
  rw [hw]
  exact List.mem_append_left _ hm

theorem strippedLines_no_newline (s : Str) : ∀ l ∈ strippedLines s, '\n' ∉ l := by
  intro l hl
  unfold strippedLines at hl
  rw [split_linesOf] at hl
  obtain ⟨l0, hl0, e⟩ := List.mem_map.mp hl
  rw [← e]
  exact stripTrailingWhitespace_no_newline l0 (linesOf_no_newline s l0 hl0)

/-- The first stripped line that is not empty is, trimmed, the marker exactly when the first
non-blank line of the content is. -/
theorem strippedLines_markerFirst (s : Str) :
    (∃ l, (strippedLines s).find? (fun l => decide (l ≠ [])) = some l ∧ TrimSpace l = marker)
      ↔ MarkerFirst s := by
  have hfun : ((fun l : Str => decide (l ≠ [])) ∘ stripTrailingWhitespace)
      = fun l => !isBlankLine l := by
    funext l
    by_cases hb : isBlankLine l = true
    · have := (stripTrailingWhitespace_eq_nil l).mpr hb
      simp [this, hb]
    · have : stripTrailingWhitespace l ≠ [] :=
        fun e => hb ((stripTrailingWhitespace_eq_nil l).mp e)
      simp [this, hb]
  have hfind : (strippedLines s).find? (fun l => decide (l ≠ []))
      = (firstNonBlankLine s).map stripTrailingWhitespace := by
    unfold strippedLines firstNonBlankLine
    rw [split_linesOf, List.find?_map, hfun]
  rw [hfind]
  unfold MarkerFirst
  constructor
  · rintro ⟨l, hl, hm⟩
    cases hf : firstNonBlankLine s with
    | none => rw [hf] at hl; exact absurd hl (by simp)
    | some l0 =>
      rw [hf] at hl
      have e : stripTrailingWhitespace l0 = l := Option.some.inj hl
      refine ⟨l0, rfl, ?_⟩
      rw [← trimSpace_stripTrailingWhitespace, e]
      exact hm
  · rintro ⟨l0, hl0, hm⟩
    refine ⟨stripTrailingWhitespace l0, by rw [hl0]; rfl, ?_⟩
    rw [trimSpace_stripTrailingWhitespace]
    exact hm
theorem linesOf_cons (c : Char) (cs : Str) (hc : c ≠ '\n') :
    ∃ l ls, linesOf cs = l :: ls ∧ linesOf (c :: cs) = (c :: l) :: ls := by
  cases h : linesOf cs with
  | nil => exact absurd h (linesOf_ne_nil cs)
  | cons l ls => exact ⟨l, ls, rfl, by simp [linesOf, hc, h]⟩

/-- A space at the head of the content does not change whether the marker comes first. -/
theorem markerFirst_space (t : Str) : MarkerFirst (' ' :: t) ↔ MarkerFirst t := by
  obtain ⟨l, ls, h1, h2⟩ := linesOf_cons ' ' t (by decide)
  have hb : isBlankLine (' ' :: l) = isBlankLine l := by
    simp [isBlankLine, isWhitespace]
  have ht : TrimSpace (' ' :: l) = TrimSpace l := by
    have : IsSpace ' ' = true := by decide
    simp [TrimSpace, TrimLeftSpace, this]
  unfold MarkerFirst firstNonBlankLine
  rw [h1, h2]
  simp only [List.find?_cons, hb]
  cases hbl : isBlankLine l with
  | true => simp
  | false =>
    simp only [Bool.not_false, Option.some.injEq]
    constructor
    · rintro ⟨x, hx, hm⟩
      exact ⟨l, rfl, by rw [← ht, hx]; exact hm⟩
    · rintro ⟨x, hx, hm⟩
      exact ⟨' ' :: l, rfl, by rw [ht, hx]; exact hm⟩

theorem trimLeftSpace_snoc (x : Str) (d : Char) (hd : IsSpace d = false) :
    ∃ y, TrimLeftSpace (x ++ [d]) = y ++ [d] := by
  induction x with
  | nil => exact ⟨[], by simp [TrimLeftSpace, hd]⟩
  | cons c cs ih =>
    by_cases hc : IsSpace c = true
    · simpa [TrimLeftSpace, hc] using ih
    · exact ⟨c :: cs, by simp [TrimLeftSpace, hc]⟩

/-- A content that starts with a character that is neither white space nor `'+'` does not
have the marker first. -/
theorem not_markerFirst_of_head (d : Char) (t : Str) (hs : IsSpace d = false) (hp : d ≠ '+') :
    ¬ MarkerFirst (d :: t) := by
  have hn : d ≠ '\n' := by
    intro e; rw [e] at hs; exact absurd hs (by decide)
  have hw : isWhitespace d = false := by
    cases h : isWhitespace d with
    | false => rfl
    | true => rw [isSpace_of_isWhitespace d h] at hs; exact absurd hs (by simp)
  obtain ⟨l, ls, _, h2⟩ := linesOf_cons d t hn
  have hb : isBlankLine (d :: l) = false := by simp [isBlankLine, hw]
  rintro ⟨x, hx, hm⟩
  unfold firstNonBlankLine at hx
  rw [h2] at hx
  simp only [List.find?_cons, hb, Bool.not_false, Option.some.injEq] at hx
  subst hx
  obtain ⟨y, hy⟩ := trimLeftSpace_snoc l.reverse d hs
  have : TrimSpace (d :: l) = d :: y.reverse := by
    simp [TrimSpace, TrimRightSpace, TrimLeftSpace, hs, hy]
  rw [this] at hm
  have hd : d = '+' := (List.cons.inj hm).1
  exact hp hd

theorem not_plus_of_lowerAlnum (d : Char) (h : isLowerAlnum d = true) :
    IsSpace d = false ∧ d ≠ '+' := by
  constructor
  · simp only [isLowerAlnum, Bool.or_eq_true, Bool.and_eq_true, decide_eq_true_eq] at h
    cases hs : IsSpace d with
    | false => rfl
    | true =>
      exfalso
      simp only [IsSpace] at hs
      split_ifs at hs <;>
        simp only [Bool.or_eq_true, Bool.and_eq_true, decide_eq_true_eq] at hs <;> omega
  · intro e
    rw [e] at h
    exact absurd h (by decide)

theorem hasPrefix_head (c d : Char) (cs ds : Str) (h : HasPrefix (c :: cs) (d :: ds) = true) :
    c = d := by
  simp only [HasPrefix, Bool.and_eq_true, beq_iff_eq] at h
  exact h.1

/-- A directive starts with a character that is neither white space nor `'+'`. -/
theorem isDirective_head (d : Char) (t : Str) (h : isDirective (d :: t) = true) :
    IsSpace d = false ∧ d ≠ '+' := by
  unfold isDirective at h
  split_ifs at h with hp
  · simp only [Bool.or_eq_true] at hp
    rcases hp with (hp | hp) | hp
    · have := hasPrefix_head _ _ _ _ hp; subst this; exact ⟨by decide, by decide⟩
    · have := hasPrefix_head _ _ _ _ hp; subst this; exact ⟨by decide, by decide⟩
    · have := hasPrefix_head _ _ _ _ hp; subst this; exact ⟨by decide, by decide⟩
  · split at h
    · exact absurd h (by simp)
    · rename_i colon _
      split_ifs at h with hc
      have h0 : ¬ (0 = colon) := fun e => hc (Or.inl e.symm)
      have hstep : directiveLoop (d :: t) colon (colon + 1 + 1) 0 = true := h
      rw [directiveLoop] at hstep
      simp only [h0, if_false, List.getElem?_cons_zero] at hstep
      split_ifs at hstep with hl
      exact not_plus_of_lowerAlnum d hl

theorem rstCommentOf_lines (text : Str) (lines : List Str) (h : commentLines text = some lines) :
    rstCommentOf [text] = rstComment ⟨finishLines (compactLines lines [])⟩ := by
  simp [rstCommentOf, groupText, groupLines, h]

/-- When the comment brings the stripped lines of a content, `rstComment` on the group
returns, and it matches exactly when the content has the marker first. -/
theorem rstCommentOf_content (text content : Str)
    (h : commentLines text = some (strippedLines content)) :
    (∃ r, rstCommentOf [text] = some r) ∧
    ((∃ p, rstCommentOf [text] = some (p, true)) ↔ MarkerFirst content) := by
  rw [rstCommentOf_lines text _ h]
  have hf := rstComment_finishLines (strippedLines content) (strippedLines_no_newline content)
  exact ⟨hf.1, hf.2.trans (strippedLines_markerFirst content)⟩

/-- The comment `//body`. -/
theorem rstCommentOf_line_comment (body : Str) :
    (∃ r, rstCommentOf ['/' :: '/' :: body] = some r) ∧
    ((∃ p, rstCommentOf ['/' :: '/' :: body] = some (p, true)) ↔ MarkerFirst body) := by
  cases body with
  | nil => exact rstCommentOf_content _ [] (by simp [commentLines])
  | cons d t =>
    by_cases hd : d = ' '
    · subst hd
      have h := rstCommentOf_content ('/' :: '/' :: ' ' :: t) t (by simp [commentLines])
      exact ⟨h.1, h.2.trans (markerFirst_space t).symm⟩
    · by_cases hdir : isDirective (d :: t) = true
      · have hl : commentLines ('/' :: '/' :: d :: t) = some [] := by
          simp [commentLines, hd, hdir]
        have hno := isDirective_head d t hdir
        have hnm := not_markerFirst_of_head d t hno.1 hno.2
        rw [rstCommentOf_lines _ _ hl]
        have h0 : rstComment ⟨finishLines (compactLines [] [])⟩ = some ([], false) := by decide
        rw [h0]
        simp [hnm]
      · exact rstCommentOf_content _ (d :: t) (by simp [commentLines, hd, hdir])

/-- The comment `/*body*/`. -/
theorem rstCommentOf_block_comment (body : Str) :
    (∃ r, rstCommentOf ['/' :: '*' :: (body ++ ['*', '/'])] = some r) ∧
    ((∃ p, rstCommentOf ['/' :: '*' :: (body ++ ['*', '/'])] = some (p, true))
      ↔ MarkerFirst body) := by
  apply rstCommentOf_content
  have hlen : ¬ (body.length + 2 + 1 + 1 < 4) := by omega
  simp [commentLines, hlen]

/-- C18, amended: for a comment group made of the single comment `//body` or `/*body*/`,
`rstComment` on the group, through `Text`, returns, and it matches exactly when the first
line of `body` that holds something else than spaces, tabs and carriage returns is, trimmed,
`"+rst"`; on the ten comments of `TestRSTComment` it matches the first eight and not the last
two. -/
theorem rstCommentOf_single (body : Str) :
    ((∃ r, rstCommentOf ['/' :: '/' :: body] = some r) ∧
      ((∃ p, rstCommentOf ['/' :: '/' :: body] = some (p, true)) ↔ MarkerFirst body)) ∧
    ((∃ r, rstCommentOf ['/' :: '*' :: (body ++ ['*', '/'])] = some r) ∧
      ((∃ p, rstCommentOf ['/' :: '*' :: (body ++ ['*', '/'])] = some (p, true))
        ↔ MarkerFirst body)) ∧
    (∀ t ∈ rstCommentTests, (rstCommentOf [t.1]).map Prod.snd = some t.2) :=
  ⟨rstCommentOf_line_comment body, rstCommentOf_block_comment body, by decide⟩

/-- C18, amended, at the comment `/* +rst\nfoo */`, which matches, and at the comment
`/* foo\n+rst */`, which does not. -/
theorem rstCommentOf_single_witness :
    (∃ p, rstCommentOf ["/* +rst\nfoo */".toList] = some (p, true)) ∧
    ¬ (∃ p, rstCommentOf ["/* foo\n+rst */".toList] = some (p, true)) := by
  constructor
  · exact (rstCommentOf_single " +rst\nfoo ".toList).2.1.2.mpr
      ⟨" +rst".toList, by decide, by decide⟩
  · intro h
    obtain ⟨l, hl, hm⟩ := (rstCommentOf_single " foo\n+rst ".toList).2.1.2.mp h
    have e : firstNonBlankLine " foo\n+rst ".toList = some " foo".toList := by decide
    rw [e] at hl
    have e2 : l = " foo".toList := (Option.some.inj hl).symm
    rw [e2] at hm
    exact absurd hm (by decide)

/-! ## One-line blocks and the shape of the text -/

theorem joinLines_snoc_nil (xs : List Str) (h : xs ≠ []) :
    joinLines (xs ++ [[]]) = joinLines xs ++ ['\n'] := by
  induction xs with
  | nil => exact absurd rfl h
  | cons x xs ih =>
    cases xs with
    | nil => simp [joinLines]
    | cons y ys =>
      have hy : y :: ys ≠ [] := by simp
      have e : (x :: y :: ys) ++ [[]] = x :: ((y :: ys) ++ [[]]) := rfl
      rw [e, joinLines_cons x _ (by simp), joinLines_cons x _ hy, ih hy]
      simp

/-- Whatever the lines kept, the text that `Text` makes of them is empty or ends with a
newline. -/
theorem finishLines_normalized (kept : List Str) : Normalized (finishLines kept) := by
  unfold finishLines
  split_ifs with h
  · right
    rw [joinLines_snoc_nil kept h.1]
    simp
  · by_cases hk : kept = []
    · left; subst hk; rfl
    · have hlast : kept.getLast? = some [] := by
        by_contra hne
        exact h ⟨hk, hne⟩
      obtain ⟨ys, hys⟩ : ∃ ys, kept = ys ++ [[]] := by
        refine ⟨kept.dropLast, ?_⟩
        have h1 := List.dropLast_append_getLast hk
        have h2 : kept.getLast hk = [] := by
          rw [List.getLast?_eq_getLast _ hk] at hlast
          exact Option.some.inj hlast
        rw [h2] at h1
        exact h1.symm
      by_cases hy : ys = []
      · left; rw [hys, hy]; rfl
      · right
        rw [hys, joinLines_snoc_nil ys hy]
        simp

/-- Every text that `Text` returns is empty or ends with a newline. -/
theorem groupText_normalized (list : List Str) (t : Str) (h : groupText list = some t) :
    Normalized t := by
  unfold groupText at h
  split at h
  · exact absurd h (by simp)
  · have e := Option.some.inj h
    rw [← e]
    exact finishLines_normalized _

theorem trimSpace_cons_space (t : Str) : TrimSpace (' ' :: t) = TrimSpace t := by
  have : IsSpace ' ' = true := by decide
  simp [TrimSpace, TrimLeftSpace, this]

/-- The trimmed content of a text that starts with a character other than white space starts
with this character. -/
theorem trimSpace_cons_head (d : Char) (l : Str) (hs : IsSpace d = false) :
    ∃ y, TrimSpace (d :: l) = d :: y := by
  obtain ⟨y, hy⟩ := trimLeftSpace_snoc l.reverse d hs
  exact ⟨y.reverse, by simp [TrimSpace, TrimRightSpace, TrimLeftSpace, hs, hy]⟩

/-- When the comment brings the stripped lines of a content of one line that is, trimmed,
the marker, `rstComment` on the group matches with an empty payload. -/
theorem rstCommentOf_one_line (text content : Str)
    (h : commentLines text = some (strippedLines content)) (hline : '\n' ∉ content)
    (hm : TrimSpace content = marker) : rstCommentOf [text] = some ([], true) := by
  have hlines : strippedLines content = [stripTrailingWhitespace content] := by
    unfold strippedLines
    rw [split_linesOf, linesOf_whole content hline]
    rfl
  have htrim : TrimSpace (stripTrailingWhitespace content) = marker := by
    rw [trimSpace_stripTrailingWhitespace]; exact hm
  have hne : stripTrailingWhitespace content ≠ [] := by
    intro e
    rw [e] at htrim
    exact absurd htrim (by decide)
  have hnl := stripTrailingWhitespace_no_newline content hline
  have hfin : finishLines (compactLines [stripTrailingWhitespace content] [])
      = stripTrailingWhitespace content ++ newline := by
    simp [compactLines, finishLines, joinLines, hne, newline]
  rw [rstCommentOf_lines text _ h, hlines, hfin]
  exact rstComment_marker_only _ hnl htrim

/-- C3: for a block of one line that holds only the marker, that is a comment `//body` or
`/*body*/` whose content `body` has no newline and is, trimmed, exactly `"+rst"` (the content
`"+rst"` itself among them), `rstComment` returns a match whose payload is the empty
string. -/
theorem rstComment_marker_block (body : Str) (hline : '\n' ∉ body)
    (hmark : TrimSpace body = marker) :
    rstCommentOf ['/' :: '/' :: body] = some ([], true) ∧
    rstCommentOf ['/' :: '*' :: (body ++ ['*', '/'])] = some ([], true) := by
  constructor
  · cases body with
    | nil => exact absurd hmark (by decide)
    | cons d t =>
      have hlt : '\n' ∉ t := fun e => hline (by simp [e])
      by_cases hd : d = ' '
      · subst hd
        rw [trimSpace_cons_space] at hmark
        exact rstCommentOf_one_line _ t (by simp [commentLines]) hlt hmark
      · by_cases hdir : isDirective (d :: t) = true
        · exfalso
          have hno := isDirective_head d t hdir
          obtain ⟨y, hy⟩ := trimSpace_cons_head d t hno.1
          rw [hy] at hmark
          exact hno.2 (List.cons.inj hmark).1
        · exact rstCommentOf_one_line _ (d :: t) (by simp [commentLines, hd, hdir]) hline
            hmark
  · apply rstCommentOf_one_line _ body _ hline hmark
    have hlen : ¬ (body.length + 2 + 1 + 1 < 4) := by omega
    simp [commentLines, hlen]

/-- C3 at the content `"+rst"`, that is at the comments `//+rst` and `/*+rst*/`. -/
theorem rstComment_marker_block_witness :
    '\n' ∉ marker ∧ TrimSpace marker = marker ∧
    rstCommentOf ["//+rst".toList] = some ([], true) ∧
    rstCommentOf ["/*+rst*/".toList] = some ([], true) :=
  ⟨by decide, by decide, rstComment_marker_block marker (by decide) (by decide)⟩

/-- C18, as stated, fails when a blank line is a line of white space only: in the comments
`/*<VT>\n+rst*/` and `/*<FF>\n+rst */` and in the one whose first line is a no-break space,
the first line that is not of white space only is the marker line, but `Text` keeps the
first line, which holds no space, tab or carriage return, and `rstComment` does not match. -/
theorem rstCommentOf_white_first_line :
    (MarkerFirstPlain "\x0b\n+rst".toList ∧
      rstCommentOf ["/*\x0b\n+rst*/".toList] = some ([], false)) ∧
    (MarkerFirstPlain "\x0c\n+rst ".toList ∧
      rstCommentOf ["/*\x0c\n+rst */".toList] = some ([], false)) ∧
    (MarkerFirstPlain "\u00a0\n+rst".toList ∧
      rstCommentOf ["/*\u00a0\n+rst*/".toList] = some ([], false)) := by
  refine ⟨⟨⟨"+rst".toList, by decide, by decide⟩, by decide⟩,
    ⟨⟨"+rst ".toList, by decide, by decide⟩, by decide⟩,
    ⟨⟨"+rst".toList, by decide, by decide⟩, by decide⟩⟩

end RstExtract
